import Mathlib

/-!
Verification of the module `abaqus_inside.py`.

A shallow embedding of the Abaqus CAE helper module `abaqus_inside.py`.
The module is scripting glue around the host application's object model
(`session`, `mdb`, `odbAccess`) and the filesystem.  We model:

* the host session's registry of open result databases (`session.odbs`),
* the filesystem as an association list from paths to result-file contents,
* the host-visible side effects (opening, upgrading, renaming, closing) as
  an event trace,
* Python exceptions as an `Except` whose error also carries the state at the
  point the exception was raised (Python side effects persist past a raise).

Host functions that are not part of the repository's single source file
(`files_with_extension_lister` from the `tools_submodule`,
`odbs_close_all_odbs` from `abaqusMacros`, the host's `changeKey`) are
modelled from the specification and marked as such in their doc comments.
-/

set_option maxHeartbeats 1000000
set_option linter.unnecessarySeqFocus false
set_option linter.unusedVariables false

deriving instance DecidableEq for Except

namespace AbaqusInside

/-- Python-level exception kinds raised by the host, the standard library or
the interpreter (`KeyError`, `IndexError`, `AttributeError`, `ValueError`,
`OSError`, and the host's own `OdbError`). -/
inductive PyErr where
  | keyError
  | indexError
  | attributeError
  | valueError
  | osError
  | odbError
  deriving DecidableEq, Repr

/-- A host-reported floating-point time value, kept in the decimal form the
host prints it in: a (most-significant-first) list of integer digits and a
list of fractional digits, as in `102.3`. -/
structure PyFloat where
  intDigits : List Nat
  fracDigits : List Nat
  deriving DecidableEq, Repr

/-- A well-formed host float repr: both digit lists nonempty (Python float
repr always prints at least one digit on each side of the dot) and every
digit below ten. -/
def PyFloat.Valid (f : PyFloat) : Prop :=
  f.intDigits ≠ [] ∧ f.fracDigits ≠ [] ∧
    (∀ d ∈ f.intDigits, d < 10) ∧ (∀ d ∈ f.fracDigits, d < 10)

instance (f : PyFloat) : Decidable f.Valid := by
  unfold PyFloat.Valid
  exact inferInstance

/-- The host's job-timing record `odb.diagnosticData.jobTime`, holding the
system, user and wallclock times in seconds. -/
structure JobTime where
  systemTime : PyFloat
  userTime : PyFloat
  wallclockTime : PyFloat
  deriving DecidableEq, Repr

/-- A mesh node as exposed by the host: an integer label and coordinates. -/
structure PyNode where
  label : Nat
  coordinates : Int × Int × Int
  deriving DecidableEq, Repr

/-- A node set of the root assembly: the host exposes the instance names the
set spans and, aligned with them, one node sequence per instance. -/
structure NodeSetData where
  instanceNames : List String
  nodes : List (List PyNode)
  deriving DecidableEq, Repr

/-- The contents of a result database file as far as this module reads them:
the diagnostic job-timing record (absent when the host cannot provide it)
and the root assembly's node sets. -/
structure OdbData where
  jobTime : Option JobTime
  nodeSets : List (String × NodeSetData)
  deriving DecidableEq, Repr

/-- An open result-database handle: the path it was opened under (`odb.name`),
the data it exposes, and the mode it was opened in. -/
structure Odb where
  name : String
  data : OdbData
  readOnly : Bool
  deriving DecidableEq, Repr

/-- Host-visible side effects performed by the module, in order. -/
inductive Event where
  | openOdb (path : String) (readOnly : Bool)
  | upgradeOdb (src dst : String)
  | rename (src dst : String)
  | closeAllOdbs
  deriving DecidableEq, Repr

/-- The world the module acts on: the filesystem (path to result-file
contents), the session's registry of open handles (`session.odbs`, keyed by
path), and the trace of host-visible effects. -/
structure PyState where
  fs : List (String × OdbData)
  sessionOdbs : List (String × Odb)
  events : List Event
  deriving DecidableEq, Repr

/-- First-match association-list lookup (Python `d[k]` returning `none`
instead of raising). -/
def lookupS {α : Type} : List (String × α) → String → Option α
  | [], _ => none
  | (k, v) :: rest, key => if k = key then some v else lookupS rest key

/-- Set a key in an association list: overwrite the first entry for the key
in place, or append a fresh entry. -/
def setKey {α : Type} : List (String × α) → String → α → List (String × α)
  | [], k, v => [(k, v)]
  | (k', v') :: rest, k, v =>
    if k' = k then (k, v) :: rest else (k', v') :: setKey rest k v

/-- Delete the entries for a key from an association list. -/
def delKey {α : Type} : List (String × α) → String → List (String × α)
  | [], _ => []
  | (k', v') :: rest, k =>
    if k' = k then delKey rest k else (k', v') :: delKey rest k

/-- The result of running a fragment of Python: either a value and the state
after it, or the exception raised together with the state at the raise
(side effects performed before the raise persist). -/
abbrev Res (α : Type) : Type := Except (PyErr × PyState) (α × PyState)

/-- Models `session.openOdb(path, readOnly=...)`: reads the file, registers a fresh
handle in `session.odbs` under the path and records the effect; raises the
host's error when there is no such file. -/
def PyState.openOdb (s : PyState) (path : String) (readOnly : Bool) : Res Odb :=
  match lookupS s.fs path with
  | none => .error (.odbError, s)
  | some d =>
    let h : Odb := ⟨path, d, readOnly⟩
    .ok (h, { s with sessionOdbs := s.sessionOdbs ++ [(path, h)],
                     events := s.events ++ [.openOdb path readOnly] })

/-- A value that is either a path string or an already-open handle (the
dynamically-typed argument the Python functions accept). -/
inductive OdbIsh where
  | path (p : String)
  | odb (h : Odb)
  deriving DecidableEq, Repr

/-- Embeds `odbs_odbobject_normalizer`: for a string, try `session.odbs[p]` and on
`KeyError` open the file with `readOnly=False`; anything else is returned
unchanged. -/
def odbs_odbobject_normalizer (s : PyState) (odb_ish : OdbIsh) : Res Odb :=
  match odb_ish with
  | .path p =>
    match lookupS s.sessionOdbs p with
    | some h => .ok (h, s)
    | none => s.openOdb p false
  | .odb h => .ok (h, s)

/-- Claim C2: `odbs_odbobject_normalizer` resolves its input to an open handle:
a path registered in `session.odbs` yields the registered handle with no
side effect; an unregistered path of an existing file is opened read-write
(`readOnly = false`), registered and returned; a non-string input is
returned unchanged; and the only locally caught error is the registry
`KeyError` — the open-on-demand's own failure propagates. -/
theorem odbs_odbobject_normalizer_spec :
    (∀ (s : PyState) (p : String) (h : Odb),
      lookupS s.sessionOdbs p = some h →
      odbs_odbobject_normalizer s (.path p) = .ok (h, s)) ∧
    (∀ (s : PyState) (p : String) (d : OdbData),
      lookupS s.sessionOdbs p = none →
      lookupS s.fs p = some d →
      odbs_odbobject_normalizer s (.path p) =
        .ok (⟨p, d, false⟩,
          { s with sessionOdbs := s.sessionOdbs ++ [(p, ⟨p, d, false⟩)],
                   events := s.events ++ [.openOdb p false] })) ∧
    (∀ (s : PyState) (h : Odb),
      odbs_odbobject_normalizer s (.odb h) = .ok (h, s)) ∧
    (∀ (s : PyState) (p : String),
      lookupS s.sessionOdbs p = none →
      lookupS s.fs p = none →
      odbs_odbobject_normalizer s (.path p) = .error (.odbError, s)) := by
  refine ⟨?_, ?_, ?_, ?_⟩
  · intro s p h hreg
    simp [odbs_odbobject_normalizer, hreg]
  · intro s p d hreg hfs
    simp [odbs_odbobject_normalizer, hreg, PyState.openOdb, hfs]
  · intro s h
    rfl
  · intro s p hreg hfs
    simp [odbs_odbobject_normalizer, hreg, PyState.openOdb, hfs]

/-- A sample result-file content used to exercise the theorems. -/
def sampleData : OdbData :=
  { jobTime := some ⟨⟨[1], [5]⟩, ⟨[2], [0]⟩, ⟨[3], [2, 5]⟩⟩,
    nodeSets := [] }

/-- A sample state: one file on disk, nothing open, empty trace. -/
def sampleState : PyState :=
  { fs := [("/jobs/a.odb", sampleData)], sessionOdbs := [], events := [] }

theorem odbs_odbobject_normalizer_spec_witness :
    (odbs_odbobject_normalizer
        { sampleState with
            sessionOdbs := [("/jobs/a.odb", ⟨"/jobs/a.odb", sampleData, true⟩)] }
        (.path "/jobs/a.odb") =
      .ok (⟨"/jobs/a.odb", sampleData, true⟩,
        { sampleState with
            sessionOdbs := [("/jobs/a.odb", ⟨"/jobs/a.odb", sampleData, true⟩)] })) ∧
    (odbs_odbobject_normalizer sampleState (.path "/jobs/a.odb") =
      .ok (⟨"/jobs/a.odb", sampleData, false⟩,
        { sampleState with
            sessionOdbs := [("/jobs/a.odb", ⟨"/jobs/a.odb", sampleData, false⟩)],
            events := [.openOdb "/jobs/a.odb" false] })) ∧
    (odbs_odbobject_normalizer sampleState (.odb ⟨"x", sampleData, true⟩) =
      .ok (⟨"x", sampleData, true⟩, sampleState)) ∧
    (odbs_odbobject_normalizer sampleState (.path "/jobs/missing.odb") =
      .error (.odbError, sampleState)) := by
  refine ⟨?_, ?_, ?_, ?_⟩
  · exact odbs_odbobject_normalizer_spec.1 _ _ _ (by decide)
  · exact odbs_odbobject_normalizer_spec.2.1 _ _ _ (by decide) (by decide)
  · exact odbs_odbobject_normalizer_spec.2.2.1 _ _
  · exact odbs_odbobject_normalizer_spec.2.2.2 _ _ (by decide) (by decide)

/-! ## The model database and `models_modify_set_name` -/

/-- A model of the current database, as far as this module touches it: the
root assembly's repository of sets (set payloads are opaque to the module;
we key them by a number). -/
structure ModelData where
  sets : List (String × Nat)
  deriving DecidableEq, Repr

/-- The host's in-memory model database `mdb`: its models, keyed by name. -/
structure Mdb where
  models : List (String × ModelData)
  deriving DecidableEq, Repr

/-- Modelled from the spec: the host repository method
`sets.changeKey(fromName=..., toName=...)` (host code, not in the
repository's source).  Per the spec, when the host's name-collision check
disallows the rename (the target name is already taken) the call is a
silent no-op; a rename of a missing set is a host error that propagates. -/
def changeKey (sets : List (String × Nat)) (fromName toName : String) :
    Except PyErr (List (String × Nat)) :=
  if (lookupS sets toName).isSome then .ok sets
  else
    match lookupS sets fromName with
    | none => .error .valueError
    | some _ => .ok (sets.map (fun p => if p.1 = fromName then (toName, p.2) else p))

/-- The per-model effect of a `changeKey` call that did not raise: unchanged
on a name collision, otherwise the set renamed in place. -/
def applyRename (sets : List (String × Nat)) (fromName toName : String) :
    List (String × Nat) :=
  if (lookupS sets toName).isSome then sets
  else sets.map (fun p => if p.1 = fromName then (toName, p.2) else p)

/-- The loop body of `models_modify_set_name`: visit each model in order and
rename the set in its root assembly; a host error carries the partially
modified model list (mutation already done persists). -/
def modelsLoop (fromName toName : String) :
    List (String × ModelData) →
      Except (PyErr × List (String × ModelData)) (List (String × ModelData))
  | [] => .ok []
  | (k, m) :: rest =>
    match changeKey m.sets fromName toName with
    | .error e => .error (e, (k, m) :: rest)
    | .ok sets' =>
      match modelsLoop fromName toName rest with
      | .error (e, rest') => .error (e, (k, ⟨sets'⟩) :: rest')
      | .ok rest' => .ok ((k, ⟨sets'⟩) :: rest')

/-- Embeds `models_modify_set_name`: renames the set in every model of the current
database's root assemblies. -/
def models_modify_set_name (mdb : Mdb) (set_name new_set_name : String) :
    Except (PyErr × Mdb) Mdb :=
  match modelsLoop set_name new_set_name mdb.models with
  | .error (e, ms') => .error (e, ⟨ms'⟩)
  | .ok ms' => .ok ⟨ms'⟩

/-- In a model where neither a collision nor a missing source set occurs —
or where the collision check disallows the rename — `changeKey` does not
raise; `modelsLoop` then maps `applyRename` over such models. -/
lemma modelsLoop_ok (fromName toName : String) :
    ∀ ms : List (String × ModelData),
      (∀ m ∈ ms, (lookupS m.2.sets toName).isSome ∨
                 (lookupS m.2.sets fromName).isSome) →
      modelsLoop fromName toName ms =
        .ok (ms.map (fun m => (m.1, ⟨applyRename m.2.sets fromName toName⟩))) := by
  intro ms
  induction ms with
  | nil => intro _; rfl
  | cons hd tl ih =>
    intro hall
    obtain ⟨k, m⟩ := hd
    have hm := hall (k, m) (List.mem_cons_self _ _)
    have htl := ih (fun x hx => hall x (List.mem_cons_of_mem _ hx))
    by_cases hc : (lookupS m.sets toName).isSome
    · simp [modelsLoop, changeKey, applyRename, htl, hc]
    · have hf : (lookupS m.sets fromName).isSome := by
        rcases hm with h | h
        · exact absurd h hc
        · exact h
      obtain ⟨v, hv⟩ := Option.isSome_iff_exists.mp hf
      have hcn := Option.not_isSome_iff_eq_none.mp hc
      simp [modelsLoop, changeKey, applyRename, htl, hcn, hv]

/-- A hard `changeKey` error (no collision, source set missing) stops the
loop; the models before it keep their applied renames, the failing model
and the rest are untouched. -/
lemma modelsLoop_error (fromName toName : String)
    (pre : List (String × ModelData)) (k : String) (m : ModelData)
    (post : List (String × ModelData))
    (hpre : ∀ x ∈ pre, (lookupS x.2.sets toName).isSome ∨
                       (lookupS x.2.sets fromName).isSome)
    (hcoll : lookupS m.sets toName = none)
    (hfrom : lookupS m.sets fromName = none) :
    modelsLoop fromName toName (pre ++ (k, m) :: post) =
      .error (.valueError,
        pre.map (fun x => (x.1, ⟨applyRename x.2.sets fromName toName⟩)) ++
          (k, m) :: post) := by
  induction pre with
  | nil =>
    simp only [List.nil_append, modelsLoop, changeKey, hcoll, hfrom,
      Option.isSome_none, Bool.false_eq_true, if_false, List.map_nil]
  | cons hd tl ih =>
    obtain ⟨k', m'⟩ := hd
    have hhd := hpre (k', m') (List.mem_cons_self _ _)
    have htl := ih (fun x hx => hpre x (List.mem_cons_of_mem _ hx))
    by_cases hc : (lookupS m'.sets toName).isSome
    · simp [modelsLoop, changeKey, applyRename, htl, hc]
    · have hf : (lookupS m'.sets fromName).isSome := by
        rcases hhd with h | h
        · exact absurd h hc
        · exact h
      obtain ⟨v, hv⟩ := Option.isSome_iff_exists.mp hf
      have hcn := Option.not_isSome_iff_eq_none.mp hc
      simp [modelsLoop, changeKey, applyRename, htl, hcn, hv]

/-- Claim C3: `models_modify_set_name` visits every model of the database and
renames the set in its root assembly; a model where the host's collision
check disallows the rename is silently left unchanged and the remaining
models are still processed, while a hard host error (missing source set
with no collision) propagates to the caller. -/
theorem models_modify_set_name_spec :
    (∀ (ms : List (String × ModelData)) (fromName toName : String),
      (∀ m ∈ ms, (lookupS m.2.sets toName).isSome ∨
                 (lookupS m.2.sets fromName).isSome) →
      models_modify_set_name ⟨ms⟩ fromName toName =
        .ok ⟨ms.map (fun m => (m.1, ⟨applyRename m.2.sets fromName toName⟩))⟩) ∧
    (∀ (sets : List (String × Nat)) (fromName toName : String) (v : Nat),
      lookupS sets toName = some v →
      changeKey sets fromName toName = .ok sets ∧
      applyRename sets fromName toName = sets) ∧
    (∀ (pre : List (String × ModelData)) (k : String) (m : ModelData)
       (post : List (String × ModelData)) (fromName toName : String),
      (∀ x ∈ pre, (lookupS x.2.sets toName).isSome ∨
                  (lookupS x.2.sets fromName).isSome) →
      lookupS m.sets toName = none →
      lookupS m.sets fromName = none →
      models_modify_set_name ⟨pre ++ (k, m) :: post⟩ fromName toName =
        .error (.valueError,
          ⟨pre.map (fun x => (x.1, ⟨applyRename x.2.sets fromName toName⟩)) ++
            (k, m) :: post⟩)) := by
  refine ⟨?_, ?_, ?_⟩
  · intro ms fromName toName hall
    simp [models_modify_set_name, modelsLoop_ok fromName toName ms hall]
  · intro sets fromName toName v hv
    constructor
    · simp [changeKey, hv]
    · simp [applyRename, hv]
  · intro pre k m post fromName toName hpre hcoll hfrom
    simp [models_modify_set_name,
      modelsLoop_error fromName toName pre k m post hpre hcoll hfrom]

theorem models_modify_set_name_spec_witness :
    (models_modify_set_name
        ⟨[("M1", ⟨[("S", 0), ("T", 1)]⟩), ("M2", ⟨[("S", 2)]⟩)]⟩ "S" "T" =
      .ok ⟨[("M1", ⟨[("S", 0), ("T", 1)]⟩), ("M2", ⟨[("T", 2)]⟩)]⟩) ∧
    (changeKey [("S", 0), ("T", 1)] "S" "T" = .ok [("S", 0), ("T", 1)]) ∧
    (models_modify_set_name
        ⟨[("M1", ⟨[("S", 2)]⟩), ("M2", ⟨[("U", 3)]⟩), ("M3", ⟨[("S", 4)]⟩)]⟩
        "S" "T" =
      .error (.valueError,
        ⟨[("M1", ⟨[("T", 2)]⟩), ("M2", ⟨[("U", 3)]⟩), ("M3", ⟨[("S", 4)]⟩)]⟩)) := by
  refine ⟨?_, ?_, ?_⟩
  · have := models_modify_set_name_spec.1
      [("M1", ⟨[("S", 0), ("T", 1)]⟩), ("M2", ⟨[("S", 2)]⟩)] "S" "T"
      (by intro m hm; fin_cases hm <;> simp [lookupS])
    simpa [applyRename, lookupS] using this
  · exact (models_modify_set_name_spec.2.1 [("S", 0), ("T", 1)] "S" "T" 1
      (by decide)).1
  · have := models_modify_set_name_spec.2.2
      [("M1", ⟨[("S", 2)]⟩)] "M2" ⟨[("U", 3)]⟩ [("M3", ⟨[("S", 4)]⟩)] "S" "T"
      (by intro m hm; fin_cases hm <;> simp [lookupS]) (by decide) (by decide)
    simpa [applyRename, lookupS] using this

/-! ## `mesh_extract_set_nodes` -/

/-- Python dict insertion: overwrite an existing key in place, otherwise
append the pair (insertion order is kept, as `collections.OrderedDict`
guarantees). -/
def pyDictInsert {α : Type} (m : List (Nat × α)) (k : Nat) (v : α) :
    List (Nat × α) :=
  if m.any (fun p => p.1 == k) then
    m.map (fun p => if p.1 = k then (k, v) else p)
  else m ++ [(k, v)]

/-- Models `collections.OrderedDict(pairs)`: fold the pairs into an empty dict. -/
def odFromList {α : Type} : List (Nat × α) → List (Nat × α) :=
  List.foldl (fun m p => pyDictInsert m p.1 p.2) []

/-- The per-instance node mapping built by `mesh_extract_set_nodes`:
`OrderedDict((node.label, node.coordinates) for node in node_set.nodes[num])`. -/
def nodeDictOf (nl : List PyNode) : List (Nat × (Int × Int × Int)) :=
  odFromList (nl.map (fun nd => (nd.label, nd.coordinates)))

/-- The dict comprehension of `mesh_extract_set_nodes`, over
`enumerate(instances_names_list)`: each instance name is paired with the
node dict of `node_set.nodes[num]`; an out-of-range `num` raises
`IndexError` at that entry. -/
def buildInstances (ns : NodeSetData) :
    List (Nat × String) →
      Except PyErr (List (String × List (Nat × (Int × Int × Int))))
  | [] => .ok []
  | (num, instName) :: rest =>
    match ns.nodes[num]? with
    | none => .error .indexError
    | some nl =>
      match buildInstances ns rest with
      | .error e => .error e
      | .ok out => .ok ((instName, nodeDictOf nl) :: out)

/-- Embeds `mesh_extract_set_nodes`: normalize the input to a handle, look the set
name up in the root assembly's node sets (a missing name raises the host's
`KeyError`), and build `{set_name: {instance_name: {label: coordinates}}}`. -/
def mesh_extract_set_nodes (s : PyState) (odb : OdbIsh) (set_name : String) :
    Res (List (String × List (String × List (Nat × (Int × Int × Int))))) :=
  match odbs_odbobject_normalizer s odb with
  | .error e => .error e
  | .ok (h, s₁) =>
    match lookupS h.data.nodeSets set_name with
    | none => .error (.keyError, s₁)
    | some ns =>
      match buildInstances ns ns.instanceNames.enum with
      | .error e => .error (e, s₁)
      | .ok instances => .ok ([(set_name, instances)], s₁)

/-- When every enumerated index is in range, the dict comprehension
succeeds and yields one entry per instance name, in order. -/
lemma buildInstances_enumFrom (ns : NodeSetData) :
    ∀ (names : List String) (k : Nat),
      k + names.length ≤ ns.nodes.length →
      buildInstances ns (List.enumFrom k names) =
        .ok ((List.enumFrom k names).map
          (fun p => (p.2, nodeDictOf (ns.nodes.getD p.1 [])))) := by
  intro names
  induction names with
  | nil => intro k _; rfl
  | cons nm names ih =>
    intro k hk
    have hklt : k < ns.nodes.length := by simp at hk; omega
    have hsome : ns.nodes[k]? = some ns.nodes[k] := List.getElem?_eq_getElem hklt
    have htl := ih (k + 1) (by simp at hk ⊢; omega)
    simp only [List.enumFrom_cons, buildInstances, hsome, htl, List.map_cons]
    simp [List.getD_eq_getElem?_getD, hsome]

/-- Claim C4: For a result handle (or a path registered to one) and a set
name: a name present in the host's node-set registry yields the mapping
`{set_name: {instance_name: {node_label: coordinates}}}` with one inner
mapping per instance name of the set, in instance order; a missing set
name raises the host's `KeyError`. -/
theorem mesh_extract_set_nodes_spec :
    (∀ (s : PyState) (h : Odb) (set_name : String) (ns : NodeSetData),
      lookupS h.data.nodeSets set_name = some ns →
      ns.instanceNames.length ≤ ns.nodes.length →
      mesh_extract_set_nodes s (.odb h) set_name =
        .ok ([(set_name,
          ns.instanceNames.enum.map
            (fun p => (p.2, nodeDictOf (ns.nodes.getD p.1 []))))], s)) ∧
    (∀ (s : PyState) (h : Odb) (set_name : String),
      lookupS h.data.nodeSets set_name = none →
      mesh_extract_set_nodes s (.odb h) set_name = .error (.keyError, s)) ∧
    (∀ (s : PyState) (p : String) (h : Odb) (set_name : String),
      lookupS s.sessionOdbs p = some h →
      mesh_extract_set_nodes s (.path p) set_name =
        mesh_extract_set_nodes s (.odb h) set_name) := by
  refine ⟨?_, ?_, ?_⟩
  · intro s h set_name ns hns hlen
    have hb := buildInstances_enumFrom ns ns.instanceNames 0 (by simpa using hlen)
    have henum : ns.instanceNames.enum = List.enumFrom 0 ns.instanceNames := rfl
    simp [mesh_extract_set_nodes, odbs_odbobject_normalizer, hns, henum, hb]
  · intro s h set_name hns
    simp [mesh_extract_set_nodes, odbs_odbobject_normalizer, hns]
  · intro s p h set_name hreg
    simp [mesh_extract_set_nodes, odbs_odbobject_normalizer, hreg]

/-- A node set used to exercise `mesh_extract_set_nodes`: two instances,
with a duplicated label inside the first instance. -/
def wNodeSet : NodeSetData :=
  { instanceNames := ["I1", "I2"],
    nodes := [[⟨1, (0, 0, 0)⟩, ⟨2, (1, 0, 0)⟩, ⟨1, (5, 5, 5)⟩], [⟨3, (0, 1, 0)⟩]] }

/-- A handle exposing `wNodeSet` under the name `"SET"`. -/
def wOdb : Odb :=
  ⟨"/jobs/a.odb", { jobTime := none, nodeSets := [("SET", wNodeSet)] }, false⟩

theorem mesh_extract_set_nodes_spec_witness :
    (mesh_extract_set_nodes sampleState (.odb wOdb) "SET" =
      .ok ([("SET",
        [("I1", [(1, ((5 : Int), (5 : Int), (5 : Int))), (2, (1, 0, 0))]),
         ("I2", [(3, (0, 1, 0))])])], sampleState)) ∧
    (mesh_extract_set_nodes sampleState (.odb wOdb) "MISSING" =
      .error (.keyError, sampleState)) ∧
    (mesh_extract_set_nodes
        { sampleState with sessionOdbs := [("/jobs/a.odb", wOdb)] }
        (.path "/jobs/a.odb") "SET" =
      mesh_extract_set_nodes
        { sampleState with sessionOdbs := [("/jobs/a.odb", wOdb)] }
        (.odb wOdb) "SET") := by
  refine ⟨?_, ?_, ?_⟩
  · have := mesh_extract_set_nodes_spec.1 sampleState wOdb "SET" wNodeSet
      (by decide) (by decide)
    rw [this]
    rfl
  · exact mesh_extract_set_nodes_spec.2.1 sampleState wOdb "MISSING" (by decide)
  · exact mesh_extract_set_nodes_spec.2.2 _ "/jobs/a.odb" wOdb "SET" (by decide)

/-! ## Alphabetical order on strings and the name-by-index lookups -/

/-- Python's string comparison, `x <= y`: code-point lexicographic. -/
def strLeB : List Char → List Char → Bool
  | [], _ => true
  | _ :: _, [] => false
  | c :: cs, d :: ds =>
    if c.toNat < d.toNat then true
    else if d.toNat < c.toNat then false
    else strLeB cs ds

/-- The order `sorted` sorts by for strings. -/
def pyStrLe (s t : String) : Prop := strLeB s.data t.data = true

instance : DecidableRel pyStrLe := fun s t => by
  unfold pyStrLe
  exact inferInstance

lemma strLeB_total : ∀ x y : List Char, strLeB x y = true ∨ strLeB y x = true := by
  intro x
  induction x with
  | nil => intro y; left; rfl
  | cons c cs ih =>
    intro y
    cases y with
    | nil => right; rfl
    | cons d ds =>
      by_cases h1 : c.toNat < d.toNat
      · left; simp [strLeB, h1]
      · by_cases h2 : d.toNat < c.toNat
        · right; simp [strLeB, h2]
        · rcases ih ds with h | h
          · left; simp [strLeB, h1, h2, h]
          · right; simp [strLeB, h1, h2, h]

lemma strLeB_trans :
    ∀ x y z : List Char,
      strLeB x y = true → strLeB y z = true → strLeB x z = true := by
  intro x
  induction x with
  | nil => intro y z _ _; rfl
  | cons c cs ih =>
    intro y z hxy hyz
    cases y with
    | nil => simp [strLeB] at hxy
    | cons d ds =>
      cases z with
      | nil => simp [strLeB] at hyz
      | cons e es =>
        by_cases h1 : c.toNat < d.toNat
        · by_cases h2 : d.toNat < e.toNat
          · have h3 : c.toNat < e.toNat := Nat.lt_trans h1 h2
            simp [strLeB, h3]
          · by_cases h4 : e.toNat < d.toNat
            · simp [strLeB, h2, h4] at hyz
            · have h3 : c.toNat < e.toNat := by omega
              simp [strLeB, h3]
        · by_cases h5 : d.toNat < c.toNat
          · simp [strLeB, h1, h5] at hxy
          · by_cases h2 : d.toNat < e.toNat
            · have h3 : c.toNat < e.toNat := by omega
              simp [strLeB, h3]
            · by_cases h4 : e.toNat < d.toNat
              · simp [strLeB, h2, h4] at hyz
              · have h3 : ¬ c.toNat < e.toNat := by omega
                have h6 : ¬ e.toNat < c.toNat := by omega
                have hcs : strLeB cs ds = true := by
                  simpa [strLeB, h1, h5] using hxy
                have hds : strLeB ds es = true := by
                  simpa [strLeB, h2, h4] using hyz
                simp [strLeB, h3, h6, ih ds es hcs hds]

lemma strLeB_antisymm :
    ∀ x y : List Char, strLeB x y = true → strLeB y x = true → x = y := by
  intro x
  induction x with
  | nil =>
    intro y _ h2
    cases y with
    | nil => rfl
    | cons d ds => simp [strLeB] at h2
  | cons c cs ih =>
    intro y h1 h2
    cases y with
    | nil => simp [strLeB] at h1
    | cons d ds =>
      by_cases hcd : c.toNat < d.toNat
      · have : ¬ d.toNat < c.toNat := by omega
        simp [strLeB, hcd, this] at h2
      · by_cases hdc : d.toNat < c.toNat
        · simp [strLeB, hcd, hdc] at h1
        · have hen : c.toNat = d.toNat := by omega
          have hce : c = d := Char.ext (UInt32.ext hen)
          have hcs : strLeB cs ds = true := by simpa [strLeB, hcd, hdc] using h1
          have hds : strLeB ds cs = true := by simpa [strLeB, hcd, hdc] using h2
          rw [hce, ih ds hcs hds]

instance : IsTotal String pyStrLe := ⟨fun s t => strLeB_total s.data t.data⟩

instance : IsTrans String pyStrLe :=
  ⟨fun a b c hab hbc => strLeB_trans a.data b.data c.data hab hbc⟩

instance : IsAntisymm String pyStrLe :=
  ⟨fun a b hab hba => by
    have h := strLeB_antisymm a.data b.data hab hba
    cases a; cases b; exact congrArg String.mk h⟩

/-- Python's `sorted` on a list of strings. -/
def pySorted (l : List String) : List String := l.insertionSort pyStrLe

/-- Embeds `odbs_retrieve_odb_name`: index into the alphabetically sorted list of
`session.odbs.keys()`; a position out of range raises `IndexError`. -/
def odbs_retrieve_odb_name (s : PyState) (number : Nat) (show_all : Bool) :
    Res String :=
  match (pySorted (s.sessionOdbs.map Prod.fst))[number]? with
  | none => .error (.indexError, s)
  | some k => .ok (k, s)

/-- Embeds `odbs_retrieve_set_name`: normalize the input, then index into the
alphabetically sorted list of `odb.rootAssembly.nodeSets.keys()`. -/
def odbs_retrieve_set_name (s : PyState) (odb : OdbIsh) (number : Nat)
    (show_all : Bool) : Res String :=
  match odbs_odbobject_normalizer s odb with
  | .error e => .error e
  | .ok (h, s₁) =>
    match (pySorted (h.data.nodeSets.map Prod.fst))[number]? with
    | none => .error (.indexError, s₁)
    | some k => .ok (k, s₁)

/-- The value a Python fragment returns, forgetting the state (and `none`
when it raised). -/
def resValue {α : Type} : Res α → Option α
  | .ok (a, _) => some a
  | .error _ => none

/-- The two sorted lists of two permuted key lists coincide. -/
lemma pySorted_eq_of_perm {ks kt : List String} (h : List.Perm ks kt) :
    pySorted ks = pySorted kt := by
  refine List.eq_of_perm_of_sorted ?_
    (List.sorted_insertionSort pyStrLe ks) (List.sorted_insertionSort pyStrLe kt)
  exact ((List.perm_insertionSort pyStrLe ks).trans h).trans
    (List.perm_insertionSort pyStrLe kt).symm

/-- Claim C8: `odbs_retrieve_odb_name` returns the element at the given
position of the alphabetically sorted list of the session's open
result-database names, and `odbs_retrieve_set_name` the element at the
given position of the alphabetically sorted list of the database's node-set
names; neither result depends on the host's iteration order of those name
collections. -/
theorem odbs_retrieve_sorted_spec :
    (∀ (s : PyState) (n : Nat) (b : Bool), ∃ l : List String,
      List.Perm (s.sessionOdbs.map Prod.fst) l ∧ l.Sorted pyStrLe ∧
      odbs_retrieve_odb_name s n b =
        (match l[n]? with
         | none => .error (.indexError, s)
         | some k => .ok (k, s))) ∧
    (∀ (s t : PyState) (n : Nat) (b b' : Bool),
      List.Perm (s.sessionOdbs.map Prod.fst) (t.sessionOdbs.map Prod.fst) →
      resValue (odbs_retrieve_odb_name s n b) =
        resValue (odbs_retrieve_odb_name t n b')) ∧
    (∀ (s : PyState) (h : Odb) (n : Nat) (b : Bool), ∃ l : List String,
      List.Perm (h.data.nodeSets.map Prod.fst) l ∧ l.Sorted pyStrLe ∧
      odbs_retrieve_set_name s (.odb h) n b =
        (match l[n]? with
         | none => .error (.indexError, s)
         | some k => .ok (k, s))) ∧
    (∀ (s t : PyState) (h h' : Odb) (n : Nat) (b b' : Bool),
      List.Perm (h.data.nodeSets.map Prod.fst) (h'.data.nodeSets.map Prod.fst) →
      resValue (odbs_retrieve_set_name s (.odb h) n b) =
        resValue (odbs_retrieve_set_name t (.odb h') n b')) := by
  refine ⟨?_, ?_, ?_, ?_⟩
  · intro s n b
    refine ⟨pySorted (s.sessionOdbs.map Prod.fst),
      (List.perm_insertionSort pyStrLe _).symm,
      List.sorted_insertionSort pyStrLe _, rfl⟩
  · intro s t n b b' hperm
    have hsort := pySorted_eq_of_perm hperm
    unfold odbs_retrieve_odb_name
    rw [hsort]
    cases (pySorted (t.sessionOdbs.map Prod.fst))[n]? <;> rfl
  · intro s h n b
    refine ⟨pySorted (h.data.nodeSets.map Prod.fst),
      (List.perm_insertionSort pyStrLe _).symm,
      List.sorted_insertionSort pyStrLe _, rfl⟩
  · intro s t h h' n b b' hperm
    have hsort := pySorted_eq_of_perm hperm
    simp only [odbs_retrieve_set_name, odbs_odbobject_normalizer]
    rw [hsort]
    cases (pySorted (h'.data.nodeSets.map Prod.fst))[n]? <;> rfl

/-- A state with two handles registered in one iteration order. -/
def wReg : PyState :=
  { fs := [], sessionOdbs := [("/b.odb", wOdb), ("/a.odb", wOdb)], events := [] }

/-- The same registry in the other iteration order. -/
def wRegSwapped : PyState :=
  { fs := [], sessionOdbs := [("/a.odb", wOdb), ("/b.odb", wOdb)], events := [] }

theorem odbs_retrieve_sorted_spec_witness :
    (∃ l : List String,
      List.Perm (wReg.sessionOdbs.map Prod.fst) l ∧ l.Sorted pyStrLe ∧
      odbs_retrieve_odb_name wReg 0 false =
        (match l[0]? with
         | none => .error (.indexError, wReg)
         | some k => .ok (k, wReg))) ∧
    (resValue (odbs_retrieve_odb_name wReg 0 false) =
      resValue (odbs_retrieve_odb_name wRegSwapped 0 true)) ∧
    (∃ l : List String,
      List.Perm (wOdb.data.nodeSets.map Prod.fst) l ∧ l.Sorted pyStrLe ∧
      odbs_retrieve_set_name wReg (.odb wOdb) 0 false =
        (match l[0]? with
         | none => .error (.indexError, wReg)
         | some k => .ok (k, wReg))) ∧
    (resValue (odbs_retrieve_set_name wReg (.odb wOdb) 0 false) =
      resValue (odbs_retrieve_set_name wRegSwapped (.odb wOdb) 0 true)) := by
  refine ⟨?_, ?_, ?_, ?_⟩
  · exact odbs_retrieve_sorted_spec.1 wReg 0 false
  · exact odbs_retrieve_sorted_spec.2.1 wReg wRegSwapped 0 false true (by decide)
  · exact odbs_retrieve_sorted_spec.2.2.1 wReg wOdb 0 false
  · exact odbs_retrieve_sorted_spec.2.2.2 wReg wRegSwapped wOdb wOdb 0 false true
      (by decide)

/-! ## The timing struct, its host repr, and `ast.literal_eval` -/

/-- The apostrophe character used by the host repr to quote keys. -/
def quoteChar : Char := Char.ofNat 39

/-- Opening curly brace. -/
def braceL : Char := Char.ofNat 123

/-- Closing curly brace. -/
def braceR : Char := Char.ofNat 125

/-- Is the character an ASCII decimal digit? -/
def isDigitC (c : Char) : Bool := 48 ≤ c.toNat && c.toNat ≤ 57

/-- The ASCII digit character of a digit value. -/
def digitChar (d : Nat) : Char := Char.ofNat (48 + d)

/-- The digit value of an ASCII digit character. -/
def charVal (c : Char) : Nat := c.toNat - 48

/-- The host's decimal rendering of a float: integer digits, a dot,
fractional digits. -/
def floatReprChars (f : PyFloat) : List Char :=
  f.intDigits.map digitChar ++ '.' :: f.fracDigits.map digitChar

/-- One `'key': value` item of the host's dict repr. -/
def entryChars (key : String) (v : PyFloat) : List Char :=
  quoteChar :: key.data ++ quoteChar :: ':' :: ' ' :: floatReprChars v

/-- The items of the host's dict repr, separated by `, ` and closed by the
final brace. -/
def renderEntries : List (String × PyFloat) → List Char
  | [] => [braceR]
  | [e] => entryChars e.1 e.2 ++ [braceR]
  | e :: e' :: es => entryChars e.1 e.2 ++ ',' :: ' ' :: renderEntries (e' :: es)

/-- The dict `odbs_get_calc_time` is specified to produce from a timing
record: the three metric names mapped to their times. -/
def jobTimeDict (t : JobTime) : List (String × PyFloat) :=
  [("systemTime", t.systemTime), ("userTime", t.userTime),
   ("wallclockTime", t.wallclockTime)]

/-- The dict literal inside the host repr of the timing struct. -/
def jobTimeBody (t : JobTime) : List Char :=
  braceL :: renderEntries (jobTimeDict t)

/-- Modelled from the host: `str(odb.diagnosticData.jobTime)` prints the
member dict wrapped in parentheses,
`({'systemTime': ..., 'userTime': ..., 'wallclockTime': ...})`. -/
def jobTimeChars (t : JobTime) : List Char :=
  '(' :: (jobTimeBody t ++ [')'])

/-- The host repr of the timing struct, as a string. -/
def str_jobTime (t : JobTime) : String := ⟨jobTimeChars t⟩

/-- The Python slice `s[1:-1]`: drop the first and the last character. -/
def pySlice1m1 (s : String) : String := ⟨(s.data.drop 1).dropLast⟩

/-- Greedily consume ASCII digits, returning their values and the rest. -/
def takeDigits : List Char → List Nat × List Char
  | [] => ([], [])
  | c :: rest =>
    if isDigitC c then
      let (ds, r) := takeDigits rest
      (charVal c :: ds, r)
    else ([], c :: rest)

/-- Parse a float literal `digits.digits`. -/
def parseFloat (s : List Char) : Option (PyFloat × List Char) :=
  let (ids, r) := takeDigits s
  if ids = [] then none
  else
    match r with
    | c :: r' =>
      if c = '.' then
        let (fds, r'') := takeDigits r'
        if fds = [] then none else some (⟨ids, fds⟩, r'')
      else none
    | [] => none

/-- After an opening quote, consume the key up to the closing quote. -/
def takeKey : List Char → Option (List Char × List Char)
  | [] => none
  | c :: rest =>
    if c = quoteChar then some ([], rest)
    else
      match takeKey rest with
      | some (k, r) => some (c :: k, r)
      | none => none

/-- Parse one `'key': value` item. -/
def parseEntry (s : List Char) : Option ((String × PyFloat) × List Char) :=
  match s with
  | [] => none
  | c :: rest =>
    if c = quoteChar then
      match takeKey rest with
      | none => none
      | some (k, r) =>
        match r with
        | c1 :: c2 :: r' =>
          if c1 = ':' ∧ c2 = ' ' then
            match parseFloat r' with
            | none => none
            | some (v, r'') => some ((⟨k⟩, v), r'')
          else none
        | _ => none
    else none

/-- Parse the items after the opening brace, up to and including the
closing brace; the fuel bounds the number of items. -/
def parseEntries : Nat → List Char → Option (List (String × PyFloat) × List Char)
  | 0, _ => none
  | fuel + 1, s =>
    match parseEntry s with
    | none => none
    | some (e, r) =>
      match r with
      | [] => none
      | c :: r' =>
        if c = braceR then some ([e], r')
        else if c = ',' then
          match r' with
          | c2 :: r'' =>
            if c2 = ' ' then
              match parseEntries fuel r'' with
              | some (es, rr) => some (e :: es, rr)
              | none => none
            else none
          | [] => none
        else none

/-- Modelled from the Python standard library: `ast.literal_eval` on the
fragment this module feeds it — a dict literal whose keys are quoted
strings and whose values are decimal float literals.  Anything else raises
`ValueError`. -/
def pyLiteralEval (s : String) : Except PyErr (List (String × PyFloat)) :=
  match s.data with
  | [] => .error .valueError
  | c :: rest =>
    if c = braceL then
      if rest = [braceR] then .ok []
      else
        match parseEntries rest.length rest with
        | some (es, []) => .ok es
        | _ => .error .valueError
    else .error .valueError

/-- Embeds `odbs_get_calc_time`: the normalizer is called but its result is
discarded (the `odb` name is not rebound); the attribute access
`odb.diagnosticData` is then performed on the original argument, so a
string argument raises `AttributeError`.  For a handle, the host's timing
repr is sliced by `[1:-1]` and passed to `ast.literal_eval`. -/
def odbs_get_calc_time (s : PyState) (odb : OdbIsh) (showInfo : Bool) :
    Res (List (String × PyFloat)) :=
  match odbs_odbobject_normalizer s odb with
  | .error e => .error e
  | .ok (_, s₁) =>
    match odb with
    | .path _ => .error (.attributeError, s₁)
    | .odb h =>
      match h.data.jobTime with
      | none => .error (.odbError, s₁)
      | some t =>
        match pyLiteralEval (pySlice1m1 (str_jobTime t)) with
        | .error e => .error (e, s₁)
        | .ok d => .ok (d, s₁)

/-- All three floats of a timing record are well formed. -/
def ValidJobTime (t : JobTime) : Prop :=
  t.systemTime.Valid ∧ t.userTime.Valid ∧ t.wallclockTime.Valid

instance (t : JobTime) : Decidable (ValidJobTime t) := by
  unfold ValidJobTime
  exact inferInstance

/-! ### The literal-eval model inverts the host repr -/

/-- The next character, if any, is not a digit. -/
def headNotDigit : List Char → Bool
  | [] => true
  | c :: _ => !(isDigitC c)

lemma digitChar_facts :
    ∀ d, d < 10 → isDigitC (digitChar d) = true ∧ charVal (digitChar d) = d := by
  decide

lemma takeDigits_append (ds : List Nat) (rest : List Char)
    (hds : ∀ d ∈ ds, d < 10) (hrest : headNotDigit rest = true) :
    takeDigits (ds.map digitChar ++ rest) = (ds, rest) := by
  induction ds with
  | nil =>
    cases rest with
    | nil => rfl
    | cons c r =>
      have hc : isDigitC c = false := by simpa [headNotDigit] using hrest
      simp [takeDigits, hc]
  | cons d ds ih =>
    have hd := (digitChar_facts d (hds d (by simp))).1
    have hv := (digitChar_facts d (hds d (by simp))).2
    have htl := ih (fun x hx => hds x (by simp [hx]))
    simp [takeDigits, hd, hv, htl]

lemma parseFloat_append (f : PyFloat) (rest : List Char)
    (hf : f.Valid) (hrest : headNotDigit rest = true) :
    parseFloat (floatReprChars f ++ rest) = some (f, rest) := by
  obtain ⟨hi, hfr, hdi, hdf⟩ := hf
  have h1 : takeDigits (f.intDigits.map digitChar ++
      ('.' :: (f.fracDigits.map digitChar ++ rest))) =
      (f.intDigits, '.' :: (f.fracDigits.map digitChar ++ rest)) :=
    takeDigits_append _ _ hdi (by show !(isDigitC '.') = true; decide)
  have h2 : takeDigits (f.fracDigits.map digitChar ++ rest) =
      (f.fracDigits, rest) := takeDigits_append _ _ hdf hrest
  have hassoc : floatReprChars f ++ rest =
      f.intDigits.map digitChar ++ ('.' :: (f.fracDigits.map digitChar ++ rest)) := by
    simp [floatReprChars]
  rw [hassoc]
  simp [parseFloat, h1, h2, hi, hfr]

lemma takeKey_append (k : List Char) (rest : List Char) (hk : quoteChar ∉ k) :
    takeKey (k ++ quoteChar :: rest) = some (k, rest) := by
  induction k with
  | nil => simp [takeKey]
  | cons c cs ih =>
    have hc : ¬ (c = quoteChar) := fun h => hk (by simp [h])
    have htl := ih (fun h => hk (List.mem_cons_of_mem _ h))
    simp [takeKey, hc, htl]

lemma string_mk_data (s : String) : String.mk s.data = s := rfl

lemma parseEntry_append (key : String) (v : PyFloat) (rest : List Char)
    (hkey : quoteChar ∉ key.data) (hv : v.Valid)
    (hrest : headNotDigit rest = true) :
    parseEntry (entryChars key v ++ rest) = some ((key, v), rest) := by
  have hkeyApp := takeKey_append key.data
    (':' :: ' ' :: (floatReprChars v ++ rest)) hkey
  have hfl := parseFloat_append v rest hv hrest
  have hassoc : entryChars key v ++ rest =
      quoteChar :: (key.data ++ quoteChar :: ':' :: ' ' ::
        (floatReprChars v ++ rest)) := by
    simp [entryChars]
  rw [hassoc]
  simp [parseEntry, hkeyApp, hfl, string_mk_data]

/-- A dict item the modelled `literal_eval` can read back: no quote inside
the key, well-formed float value. -/
def ValidEntry (e : String × PyFloat) : Prop :=
  quoteChar ∉ e.1.data ∧ e.2.Valid

lemma renderEntries_length_ge (es : List (String × PyFloat)) :
    es.length ≤ (renderEntries es).length := by
  induction es with
  | nil => simp [renderEntries]
  | cons e es ih =>
    cases es with
    | nil => simp [renderEntries]
    | cons e' es' =>
      simp only [renderEntries, List.length_append, List.length_cons] at ih ⊢
      omega

lemma parseEntries_render (es : List (String × PyFloat)) :
    ∀ fuel, es ≠ [] → es.length ≤ fuel → (∀ e ∈ es, ValidEntry e) →
      parseEntries fuel (renderEntries es) = some (es, []) := by
  induction es with
  | nil => intro fuel h; exact absurd rfl h
  | cons e es ih =>
    intro fuel _ hfuel hval
    obtain ⟨fuel, rfl⟩ : ∃ f, fuel = f + 1 :=
      ⟨fuel - 1, by simp at hfuel; omega⟩
    obtain ⟨hkey, hv⟩ := hval e (by simp)
    cases es with
    | nil =>
      have hpe := parseEntry_append e.1 e.2 [braceR] hkey hv
        (by show !(isDigitC braceR) = true; decide)
      simp [renderEntries, parseEntries, hpe]
    | cons e' es' =>
      have hpe := parseEntry_append e.1 e.2
        (',' :: ' ' :: renderEntries (e' :: es')) hkey hv
        (by show !(isDigitC ',') = true; decide)
      have hrec := ih fuel (by simp) (by simp at hfuel ⊢; omega)
        (fun x hx => hval x (by simp [hx]))
      have hcomma : (',' : Char) ≠ braceR := by decide
      simp [renderEntries, parseEntries, hpe, hcomma, hrec]

lemma pyLiteralEval_render (es : List (String × PyFloat))
    (hne : es ≠ []) (hval : ∀ e ∈ es, ValidEntry e) :
    pyLiteralEval ⟨braceL :: renderEntries es⟩ = .ok es := by
  obtain ⟨e, tail, rfl⟩ : ∃ e tail, es = e :: tail := by
    cases es with
    | nil => exact absurd rfl hne
    | cons e t => exact ⟨e, t, rfl⟩
  have hlen := renderEntries_length_ge (e :: tail)
  have hpe := parseEntries_render (e :: tail)
    (renderEntries (e :: tail)).length (by simp) hlen hval
  have hq : quoteChar ≠ braceR := by decide
  have hneq : renderEntries (e :: tail) ≠ [braceR] := by
    cases tail <;> simp [renderEntries, entryChars, hq]
  simp [pyLiteralEval, hneq, hpe]

lemma pySlice_str_jobTime (t : JobTime) :
    pySlice1m1 (str_jobTime t) = ⟨jobTimeBody t⟩ := by
  simp [pySlice1m1, str_jobTime, jobTimeChars]

/-- For a handle whose timing record is present and well formed,
`odbs_get_calc_time` returns the parsed three-key dict unchanged
(shared workhorse for several claims). -/
lemma calc_time_handle_ok (s : PyState) (h : Odb) (t : JobTime) (b : Bool)
    (hjt : h.data.jobTime = some t) (hv : ValidJobTime t) :
    odbs_get_calc_time s (.odb h) b = .ok (jobTimeDict t, s) := by
  obtain ⟨h1, h2, h3⟩ := hv
  have hval : ∀ e ∈ jobTimeDict t, ValidEntry e := by
    intro e he
    simp [jobTimeDict] at he
    rcases he with rfl | rfl | rfl
    · exact ⟨(show quoteChar ∉ "systemTime".data by decide), h1⟩
    · exact ⟨(show quoteChar ∉ "userTime".data by decide), h2⟩
    · exact ⟨(show quoteChar ∉ "wallclockTime".data by decide), h3⟩
  have hparse := pyLiteralEval_render (jobTimeDict t) (by simp [jobTimeDict]) hval
  simp [odbs_get_calc_time, odbs_odbobject_normalizer, hjt,
    pySlice_str_jobTime, jobTimeBody, hparse]

/-- Claim C5: For an open result handle whose timing record the host provides
(in its usual repr), `odbs_get_calc_time` literal-evaluates the repr
stripped of its first and last character and returns the dict with keys
`systemTime`, `userTime` and `wallclockTime` mapped to the corresponding
times. -/
theorem odbs_get_calc_time_spec :
    ∀ (s : PyState) (h : Odb) (t : JobTime) (b : Bool),
      h.data.jobTime = some t → ValidJobTime t →
      odbs_get_calc_time s (.odb h) b =
        .ok ([("systemTime", t.systemTime), ("userTime", t.userTime),
              ("wallclockTime", t.wallclockTime)], s) :=
  fun s h t b hjt hv => calc_time_handle_ok s h t b hjt hv

/-- The timing record used by the witnesses (the one inside `sampleData`). -/
def wTime : JobTime := ⟨⟨[1], [5]⟩, ⟨[2], [0]⟩, ⟨[3], [2, 5]⟩⟩

/-- A handle carrying `wTime`. -/
def wHandle : Odb := ⟨"/jobs/a.odb", { jobTime := some wTime, nodeSets := [] }, false⟩

theorem odbs_get_calc_time_spec_witness :
    odbs_get_calc_time sampleState (.odb wHandle) true =
      .ok ([("systemTime", ⟨[1], [5]⟩), ("userTime", ⟨[2], [0]⟩),
            ("wallclockTime", ⟨[3], [2, 5]⟩)], sampleState) :=
  odbs_get_calc_time_spec sampleState wHandle wTime true rfl (by decide)

/-- Claim C9: `odbs_get_calc_time` discards the normalizer's result instead
of rebinding `odb`: whenever a path-string argument normalizes to a handle,
the subsequent attribute access still runs on the string and raises
`AttributeError` (in the state the normalizer left behind); only arguments
that are already open handles succeed. -/
theorem odbs_get_calc_time_string_arg_fails :
    (∀ (s : PyState) (p : String) (h : Odb) (s₁ : PyState) (b : Bool),
      odbs_odbobject_normalizer s (.path p) = .ok (h, s₁) →
      odbs_get_calc_time s (.path p) b = .error (.attributeError, s₁)) ∧
    (∀ (s : PyState) (h : Odb) (t : JobTime) (b : Bool),
      h.data.jobTime = some t → ValidJobTime t →
      ∃ d, odbs_get_calc_time s (.odb h) b = .ok (d, s)) := by
  constructor
  · intro s p h s₁ b hn
    simp [odbs_get_calc_time, hn]
  · intro s h t b hjt hv
    exact ⟨_, calc_time_handle_ok s h t b hjt hv⟩

theorem odbs_get_calc_time_string_arg_fails_witness :
    (odbs_get_calc_time sampleState (.path "/jobs/a.odb") true =
      .error (.attributeError,
        { sampleState with
            sessionOdbs := [("/jobs/a.odb", ⟨"/jobs/a.odb", sampleData, false⟩)],
            events := [.openOdb "/jobs/a.odb" false] })) ∧
    (∃ d, odbs_get_calc_time sampleState (.odb ⟨"/jobs/a.odb", sampleData, true⟩)
        true = .ok (d, sampleState)) := by
  constructor
  · exact odbs_get_calc_time_string_arg_fails.1 sampleState "/jobs/a.odb"
      ⟨"/jobs/a.odb", sampleData, false⟩
      { sampleState with
          sessionOdbs := [("/jobs/a.odb", ⟨"/jobs/a.odb", sampleData, false⟩)],
          events := [.openOdb "/jobs/a.odb" false] } true (by decide)
  · exact odbs_get_calc_time_string_arg_fails.2 sampleState
      ⟨"/jobs/a.odb", sampleData, true⟩ wTime true rfl (by decide)

/-! ## Filesystem helpers and the batch functions -/

/-- Python `str.replace` for a nonempty pattern, on character lists: scan
left to right, replacing every non-overlapping occurrence; the fuel is an
upper bound on the number of scan steps (one character or one match each). -/
def pyReplaceAux (pat rep : List Char) : Nat → List Char → List Char
  | 0, s => s
  | _ + 1, [] => []
  | fuel + 1, c :: rest =>
    if pat.isPrefixOf (c :: rest) then
      rep ++ pyReplaceAux pat rep fuel (List.drop (pat.length - 1) rest)
    else c :: pyReplaceAux pat rep fuel rest

/-- Python `s.replace(pat, rep)` on character lists (the degenerate empty
pattern is not used by the module and is modelled as the identity). -/
def pyReplace (s pat rep : List Char) : List Char :=
  if pat = [] then s else pyReplaceAux pat rep s.length s

/-- Python `s.replace(pat, rep)` on strings. -/
def pyReplaceStr (s pat rep : String) : String :=
  ⟨pyReplace s.data pat.data rep.data⟩

/-- The old-file name `odbs_upgrade_odbs_folder` computes:
`job_key.replace('.odb', '-old.odb')`. -/
def old_name_of (p : String) : String := pyReplaceStr p ".odb" "-old.odb"

/-- Models `os.path.dirname` for the paths the module handles (a file below some
non-root directory): everything before the last slash, empty when there is
no slash. -/
def dirname (p : String) : String :=
  ⟨((p.data.reverse.dropWhile (fun c => c ≠ '/')).drop 1).reverse⟩

/-- Models `os.path.join(folder, name)` for a relative `name`: append, inserting a
slash unless the folder is empty or already ends in one. -/
def os_path_join (folder name : String) : String :=
  if folder = "" then name
  else if folder.data.getLast? = some '/' then ⟨folder.data ++ name.data⟩
  else ⟨folder.data ++ '/' :: name.data⟩

/-- Does the string end with the given suffix? -/
def strEndsWith (s suf : String) : Bool := suf.data.isSuffixOf s.data

/-- Does the string start with the given first part? -/
def strStartsWith (s pre : String) : Bool := pre.data.isPrefixOf s.data

/-- Modelled from the spec: `files_with_extension_lister` from the
repository's `tools_submodule` (whose source is not under `src/`): lists
the files with the given extension that lie in the folder — directly, or
anywhere below it when the recursive option is set — as full paths. -/
def files_with_extension_lister (fs : List (String × OdbData))
    (folder ext : String) (recursive : Bool) : List String :=
  (fs.map Prod.fst).filter (fun p =>
    strEndsWith p ext &&
      (if recursive then
        strStartsWith p (os_path_join folder "") || dirname p == folder
      else dirname p == folder))

/-- Modelled from the spec: `odbs_close_all_odbs` from `abaqusMacros` (not
under `src/`): closes every open result handle of the session. -/
def odbs_close_all_odbs (s : PyState) : PyState :=
  { s with sessionOdbs := [], events := s.events ++ [.closeAllOdbs] }

/-- The loop body of `odbs_get_calc_time_folder`: for each listed path in
order, normalize it (opening on demand) and extract its timing dict into
the output dict. -/
def calcLoop (b : Bool) :
    PyState → List String → Res (List (String × List (String × PyFloat)))
  | s, [] => .ok ([], s)
  | s, p :: rest =>
    match odbs_odbobject_normalizer s (.path p) with
    | .error e => .error e
    | .ok (h, s₁) =>
      match odbs_get_calc_time s₁ (.odb h) b with
      | .error e => .error e
      | .ok (d, s₂) =>
        match calcLoop b s₂ rest with
        | .error e => .error e
        | .ok (out, s₃) => .ok ((p, d) :: out, s₃)

/-- Embeds `odbs_get_calc_time_folder`: list the `.odb` files, collect each file's
timing dict keyed by its path, and close all open handles afterwards iff
`close_odbs` is set. -/
def odbs_get_calc_time_folder (s : PyState) (odbs_folder : String)
    (showInfo recursive close_odbs : Bool) :
    Res (List (String × List (String × PyFloat))) :=
  let odb_list := files_with_extension_lister s.fs odbs_folder ".odb" recursive
  match calcLoop showInfo s odb_list with
  | .error e => .error e
  | .ok (out, s₁) =>
    if close_odbs then .ok (out, odbs_close_all_odbs s₁) else .ok (out, s₁)

/-- The host behaviour `odbs_upgrade_odbs_folder` depends on: the
`odbAccess.isUpgradeRequiredForOdb` predicate, and what
`session.upgradeOdb` does to a file's content (`none` models a host
upgrade failure). -/
structure HostModel where
  isUpgradeRequired : String → Bool
  upgrade : OdbData → Option OdbData

/-- Models `session.upgradeOdb(src, dst)`: read `src`, write the upgraded content
to `dst`; a missing source or a failed upgrade raises the host's error. -/
def session_upgradeOdb (host : HostModel) (s : PyState) (src dst : String) :
    Except (PyErr × PyState) PyState :=
  match lookupS s.fs src with
  | none => .error (.odbError, s)
  | some d =>
    match host.upgrade d with
    | none => .error (.odbError, s)
    | some d' =>
      .ok { s with fs := setKey s.fs dst d',
                   events := s.events ++ [.upgradeOdb src dst] }

/-- Models `os.rename(src, dst)`: move the file, overwriting any file at `dst`;
a missing source raises `OSError`. -/
def os_rename (s : PyState) (src dst : String) :
    Except (PyErr × PyState) PyState :=
  match lookupS s.fs src with
  | none => .error (.osError, s)
  | some d =>
    .ok { s with fs := setKey (delKey s.fs src) dst d,
                 events := s.events ++ [.rename src dst] }

/-- The straight-line body of one iteration of the upgrade loop: upgrade
the file into the temp file, rename the file to its old name, rename the
temp file to the file's name. -/
def upgradeOne (host : HostModel) (temp : String) (s : PyState)
    (job : String) : Except (PyErr × PyState) PyState :=
  match session_upgradeOdb host s job temp with
  | .error e => .error e
  | .ok s₁ =>
    match os_rename s₁ job (old_name_of job) with
    | .error e => .error e
    | .ok s₂ => os_rename s₂ temp job

/-- The loop of `odbs_upgrade_odbs_folder` over the upgradable files. -/
def upgradeLoop (host : HostModel) (temp : String) :
    PyState → List String → Except (PyErr × PyState) PyState
  | s, [] => .ok s
  | s, job :: rest =>
    match upgradeOne host temp s job with
    | .error e => .error e
    | .ok s₃ => upgradeLoop host temp s₃ rest

/-- Embeds `odbs_upgrade_odbs_folder`: list the `.odb` files (recursively iff
requested), keep those the host predicate marks as requiring upgrade, and
process each in order through the upgrade-and-rename steps (`print_every`
only controls printing). -/
def odbs_upgrade_odbs_folder (host : HostModel) (s : PyState)
    (odbs_folder : String) (recursive : Bool) (print_every : Nat) :
    Except (PyErr × PyState) PyState :=
  let odb_list := files_with_extension_lister s.fs odbs_folder ".odb" recursive
  let upgradable_odb_list := odb_list.filter host.isUpgradeRequired
  upgradeLoop host (os_path_join odbs_folder "temp_odb_name.odb") s
    upgradable_odb_list

/-- The three host effects processing one upgradable file performs. -/
def stepEvents (temp : String) (p : String) : List Event :=
  [.upgradeOdb p temp, .rename p (old_name_of p), .rename temp p]

/-! ### Association-list facts -/

lemma lookupS_append {α : Type} (l₁ l₂ : List (String × α)) (k : String) :
    lookupS (l₁ ++ l₂) k =
      (match lookupS l₁ k with
       | some v => some v
       | none => lookupS l₂ k) := by
  induction l₁ with
  | nil => rfl
  | cons hd tl ih =>
    obtain ⟨k', v'⟩ := hd
    by_cases h : k' = k <;> simp [lookupS, h, ih]

lemma lookupS_setKey_self {α : Type} (l : List (String × α)) (k : String)
    (v : α) : lookupS (setKey l k v) k = some v := by
  induction l with
  | nil => simp [setKey, lookupS]
  | cons hd tl ih =>
    obtain ⟨k', v'⟩ := hd
    by_cases h : k' = k
    · simp [setKey, h, lookupS]
    · simp [setKey, h, lookupS, ih]

lemma lookupS_setKey_other {α : Type} (l : List (String × α)) (k : String)
    (v : α) (r : String) (h : r ≠ k) :
    lookupS (setKey l k v) r = lookupS l r := by
  have hkr : ¬ (k = r) := fun hh => h hh.symm
  induction l with
  | nil =>
    show (if k = r then some v else lookupS [] r) = lookupS [] r
    rw [if_neg hkr]
  | cons hd tl ih =>
    obtain ⟨k', v'⟩ := hd
    show lookupS (if k' = k then (k, v) :: tl else (k', v') :: setKey tl k v) r =
      lookupS ((k', v') :: tl) r
    by_cases hk : k' = k
    · rw [if_pos hk]
      show (if k = r then some v else lookupS tl r) =
        (if k' = r then some v' else lookupS tl r)
      have hne : ¬ (k' = r) := fun hh => h (hh ▸ hk)
      rw [if_neg hkr, if_neg hne]
    · rw [if_neg hk]
      show (if k' = r then some v' else lookupS (setKey tl k v) r) =
        (if k' = r then some v' else lookupS tl r)
      rw [ih]

lemma lookupS_delKey_self {α : Type} (l : List (String × α)) (k : String) :
    lookupS (delKey l k) k = none := by
  induction l with
  | nil => rfl
  | cons hd tl ih =>
    obtain ⟨k', v'⟩ := hd
    by_cases h : k' = k
    · simp [delKey, h, ih]
    · simp [delKey, h, lookupS, ih]

lemma lookupS_delKey_other {α : Type} (l : List (String × α)) (k r : String)
    (h : r ≠ k) : lookupS (delKey l k) r = lookupS l r := by
  induction l with
  | nil => rfl
  | cons hd tl ih =>
    obtain ⟨k', v'⟩ := hd
    show lookupS (if k' = k then delKey tl k else (k', v') :: delKey tl k) r =
      lookupS ((k', v') :: tl) r
    by_cases hk : k' = k
    · rw [if_pos hk, ih]
      have hne : ¬ (k' = r) := fun hh => h (hh ▸ hk)
      show lookupS tl r = if k' = r then some v' else lookupS tl r
      rw [if_neg hne]
    · rw [if_neg hk]
      show (if k' = r then some v' else lookupS (delKey tl k) r) =
        (if k' = r then some v' else lookupS tl r)
      rw [ih]

lemma lookupS_mapKeyed {α : Type} (f : String → α) :
    ∀ (l : List String) (p : String), p ∉ l →
      lookupS (l.map (fun q => (q, f q))) p = none := by
  intro l
  induction l with
  | nil => intro p _; rfl
  | cons q tl ih =>
    intro p hp
    have h1 : ¬ (q = p) := fun h => hp (by simp [h])
    have h2 := ih p (fun h => hp (List.mem_cons_of_mem _ h))
    simp [lookupS, h1, h2]

/-! ### The upgrade loop's trace (C1) -/

lemma session_upgradeOdb_ok {host : HostModel} {s : PyState} {src dst : String}
    {s' : PyState} (h : session_upgradeOdb host s src dst = .ok s') :
    ∃ d d', lookupS s.fs src = some d ∧ host.upgrade d = some d' ∧
      s' = { s with fs := setKey s.fs dst d',
                    events := s.events ++ [.upgradeOdb src dst] } := by
  cases hl : lookupS s.fs src with
  | none => simp [session_upgradeOdb, hl] at h
  | some d =>
    cases hu : host.upgrade d with
    | none => simp [session_upgradeOdb, hl, hu] at h
    | some d' =>
      simp only [session_upgradeOdb, hl, hu] at h
      injection h with h'
      exact ⟨d, d', rfl, hu, h'.symm⟩

lemma os_rename_ok {s : PyState} {src dst : String} {s' : PyState}
    (h : os_rename s src dst = .ok s') :
    ∃ d, lookupS s.fs src = some d ∧
      s' = { s with fs := setKey (delKey s.fs src) dst d,
                    events := s.events ++ [.rename src dst] } := by
  cases hl : lookupS s.fs src with
  | none => simp [os_rename, hl] at h
  | some d =>
    simp only [os_rename, hl] at h
    injection h with h'
    exact ⟨d, rfl, h'.symm⟩

lemma upgradeOne_ok_shape {host : HostModel} {temp : String} {s : PyState}
    {job : String} {s₃ : PyState} (h : upgradeOne host temp s job = .ok s₃) :
    s₃.events = s.events ++ stepEvents temp job ∧
    s₃.sessionOdbs = s.sessionOdbs := by
  cases h1 : session_upgradeOdb host s job temp with
  | error e => simp [upgradeOne, h1] at h
  | ok s₁ =>
    cases h2 : os_rename s₁ job (old_name_of job) with
    | error e => simp [upgradeOne, h1, h2] at h
    | ok s₂ =>
      simp only [upgradeOne, h1, h2] at h
      obtain ⟨d₁, d₁', _, _, rfl⟩ := session_upgradeOdb_ok h1
      obtain ⟨d₂, _, rfl⟩ := os_rename_ok h2
      obtain ⟨d₃, _, rfl⟩ := os_rename_ok h
      simp [stepEvents]

lemma upgradeLoop_ok_events (host : HostModel) (temp : String) :
    ∀ (jobs : List String) (s s' : PyState),
      upgradeLoop host temp s jobs = .ok s' →
      s'.events = s.events ++ jobs.flatMap (stepEvents temp) ∧
      s'.sessionOdbs = s.sessionOdbs := by
  intro jobs
  induction jobs with
  | nil =>
    intro s s' h
    cases h
    simp
  | cons job rest ih =>
    intro s s' h
    cases h0 : upgradeOne host temp s job with
    | error e => simp [upgradeLoop, h0] at h
    | ok s₃ =>
      simp only [upgradeLoop, h0] at h
      obtain ⟨hev, hsess⟩ := upgradeOne_ok_shape h0
      obtain ⟨hev', hsess'⟩ := ih s₃ s' h
      constructor
      · rw [hev', hev]
        simp
      · rw [hsess', hsess]

/-- Claim C1: When `odbs_upgrade_odbs_folder` completes, the host effects it
performed are exactly, for each listed `.odb` file that the host predicate
marked as requiring upgrade, in list order: upgrade the file into the
folder's single temp file `temp_odb_name.odb`, rename the file to the old
name derived from it, rename the temp file back to the file's name — and
nothing else (in particular, files failing the predicate are neither
upgraded nor renamed, and the session registry is untouched). -/
theorem odbs_upgrade_odbs_folder_steps (host : HostModel) (s : PyState)
    (odbs_folder : String) (recursive : Bool) (print_every : Nat)
    (s' : PyState)
    (h : odbs_upgrade_odbs_folder host s odbs_folder recursive print_every =
      .ok s') :
    s'.events = s.events ++
      ((files_with_extension_lister s.fs odbs_folder ".odb" recursive).filter
          host.isUpgradeRequired).flatMap
        (stepEvents (os_path_join odbs_folder "temp_odb_name.odb")) ∧
    s'.sessionOdbs = s.sessionOdbs := by
  unfold odbs_upgrade_odbs_folder at h
  exact upgradeLoop_ok_events host _ _ s s' h

/-- The host model used by the batch witnesses: only `/f/a.odb` requires
upgrade; upgrading succeeds exactly on files whose timing record is
present (and leaves the content unchanged). -/
def wHost : HostModel :=
  { isUpgradeRequired := fun p => p == "/f/a.odb",
    upgrade := fun d => if d.jobTime.isSome then some d else none }

/-- Two files in folder `/f`, nothing open. -/
def wUpState : PyState :=
  { fs := [("/f/a.odb", sampleData), ("/f/b.odb", sampleData)],
    sessionOdbs := [], events := [] }

/-- The state `odbs_upgrade_odbs_folder` leaves behind on `wUpState`. -/
def wUpResult : PyState :=
  match odbs_upgrade_odbs_folder wHost wUpState "/f" false 1 with
  | .ok s => s
  | .error e => e.2

theorem odbs_upgrade_odbs_folder_steps_witness :
    wUpResult.events = wUpState.events ++
      ((files_with_extension_lister wUpState.fs "/f" ".odb" false).filter
          wHost.isUpgradeRequired).flatMap
        (stepEvents (os_path_join "/f" "temp_odb_name.odb")) ∧
    wUpResult.sessionOdbs = wUpState.sessionOdbs :=
  odbs_upgrade_odbs_folder_steps wHost wUpState "/f" false 1 wUpResult
    (by decide)

/-! ### The batch timing collector (C6) -/

/-- The timing dict of the file at a path (empty when the file or its
timing record is absent — the theorems' hypotheses rule that out). -/
def calcDictOf (fs : List (String × OdbData)) (p : String) :
    List (String × PyFloat) :=
  match lookupS fs p with
  | some d =>
    match d.jobTime with
    | some t => jobTimeDict t
    | none => []
  | none => []

/-- The handle the normalizer opens for a path (dummy when absent). -/
def handleOf (fs : List (String × OdbData)) (p : String) : Odb :=
  match lookupS fs p with
  | some d => ⟨p, d, false⟩
  | none => ⟨p, ⟨none, []⟩, false⟩

lemma calcLoop_ok (b : Bool) :
    ∀ (l : List String) (s : PyState),
      l.Nodup →
      (∀ p ∈ l, lookupS s.sessionOdbs p = none) →
      (∀ p ∈ l, ∃ d t, lookupS s.fs p = some d ∧ d.jobTime = some t ∧
        ValidJobTime t) →
      calcLoop b s l =
        .ok (l.map (fun p => (p, calcDictOf s.fs p)),
          { s with
              sessionOdbs :=
                s.sessionOdbs ++ l.map (fun p => (p, handleOf s.fs p)),
              events := s.events ++ l.map (fun p => Event.openOdb p false) }) := by
  intro l
  induction l with
  | nil =>
    intro s _ _ _
    simp [calcLoop]
  | cons p rest ih =>
    intro s hnodup hsess hgood
    obtain ⟨d, t, hfs, hjt, hv⟩ := hgood p (by simp)
    have hsp := hsess p (by simp)
    have hnorm : odbs_odbobject_normalizer s (.path p) =
        .ok (⟨p, d, false⟩,
          { s with sessionOdbs := s.sessionOdbs ++ [(p, ⟨p, d, false⟩)],
                   events := s.events ++ [Event.openOdb p false] }) := by
      simp [odbs_odbobject_normalizer, hsp, PyState.openOdb, hfs]
    have hcalc : odbs_get_calc_time
        { s with sessionOdbs := s.sessionOdbs ++ [(p, ⟨p, d, false⟩)],
                 events := s.events ++ [Event.openOdb p false] }
        (.odb ⟨p, d, false⟩) b =
        .ok (jobTimeDict t,
          { s with sessionOdbs := s.sessionOdbs ++ [(p, ⟨p, d, false⟩)],
                   events := s.events ++ [Event.openOdb p false] }) :=
      calc_time_handle_ok _ _ t b hjt hv
    have hpnr : p ∉ rest := (List.nodup_cons.mp hnodup).1
    have hsess' : ∀ q ∈ rest,
        lookupS (s.sessionOdbs ++ [(p, (⟨p, d, false⟩ : Odb))]) q = none := by
      intro q hq
      have hqn := hsess q (List.mem_cons_of_mem _ hq)
      have hpq : ¬ (p = q) := fun hh => hpnr (hh ▸ hq)
      rw [lookupS_append, hqn]
      simp [lookupS, hpq]
    have hgood' : ∀ q ∈ rest, ∃ dq tq, lookupS s.fs q = some dq ∧
        dq.jobTime = some tq ∧ ValidJobTime tq :=
      fun q hq => hgood q (List.mem_cons_of_mem _ hq)
    have hrest := ih
      { s with sessionOdbs := s.sessionOdbs ++ [(p, ⟨p, d, false⟩)],
               events := s.events ++ [Event.openOdb p false] }
      (List.nodup_cons.mp hnodup).2 hsess' hgood'
    have hd : calcDictOf s.fs p = jobTimeDict t := by
      simp [calcDictOf, hfs, hjt]
    have hh : handleOf s.fs p = ⟨p, d, false⟩ := by
      simp [handleOf, hfs]
    simp [calcLoop, hnorm, hcalc, hrest, hd, hh]

/-- Claim C6: Starting from a session with no open handles,
`odbs_get_calc_time_folder` lists the folder's `.odb` files (recursively
iff requested), opens each via the normalizer, and returns one entry per
listed path mapping it to that file's timing dict; afterwards it closes
all open result handles exactly when `close_odbs` is true, and leaves them
all open when it is false. -/
theorem odbs_get_calc_time_folder_spec :
    ∀ (fs : List (String × OdbData)) (folder : String)
      (b recursive close_odbs : Bool) (ev : List Event),
      (fs.map Prod.fst).Nodup →
      (∀ p ∈ files_with_extension_lister fs folder ".odb" recursive,
        ∃ d t, lookupS fs p = some d ∧ d.jobTime = some t ∧ ValidJobTime t) →
      odbs_get_calc_time_folder ⟨fs, [], ev⟩ folder b recursive close_odbs =
        .ok ((files_with_extension_lister fs folder ".odb" recursive).map
              (fun p => (p, calcDictOf fs p)),
          if close_odbs then
            { fs := fs, sessionOdbs := [],
              events := (ev ++ (files_with_extension_lister fs folder ".odb"
                  recursive).map (fun p => Event.openOdb p false)) ++
                [Event.closeAllOdbs] }
          else
            { fs := fs,
              sessionOdbs := (files_with_extension_lister fs folder ".odb"
                  recursive).map (fun p => (p, handleOf fs p)),
              events := ev ++ (files_with_extension_lister fs folder ".odb"
                  recursive).map (fun p => Event.openOdb p false) }) := by
  intro fs folder b recursive close_odbs ev hnodup hgood
  have hlistnodup :
      (files_with_extension_lister fs folder ".odb" recursive).Nodup :=
    List.Nodup.filter _ hnodup
  have hloop := calcLoop_ok b
    (files_with_extension_lister fs folder ".odb" recursive)
    ⟨fs, [], ev⟩ hlistnodup (fun p _ => rfl) hgood
  simp only [odbs_get_calc_time_folder, hloop]
  cases close_odbs <;> simp [odbs_close_all_odbs]

theorem odbs_get_calc_time_folder_spec_witness :
    odbs_get_calc_time_folder ⟨wUpState.fs, [], []⟩ "/f" true false true =
      .ok ([("/f/a.odb", jobTimeDict wTime), ("/f/b.odb", jobTimeDict wTime)],
        { fs := wUpState.fs, sessionOdbs := [],
          events := [.openOdb "/f/a.odb" false, .openOdb "/f/b.odb" false,
                     .closeAllOdbs] }) := by
  have hgood : ∀ p ∈ files_with_extension_lister wUpState.fs "/f" ".odb" false,
      ∃ d t, lookupS wUpState.fs p = some d ∧ d.jobTime = some t ∧
        ValidJobTime t := by
    intro p hp
    have hl : files_with_extension_lister wUpState.fs "/f" ".odb" false =
        ["/f/a.odb", "/f/b.odb"] := by decide
    rw [hl] at hp
    simp at hp
    rcases hp with rfl | rfl
    · exact ⟨sampleData, wTime, rfl, rfl, by decide⟩
    · exact ⟨sampleData, wTime, rfl, rfl, by decide⟩
  have h := odbs_get_calc_time_folder_spec wUpState.fs "/f" true false true []
    (by decide) hgood
  rw [h]
  rfl

/-! ### Error paths of the batch functions (C7) -/

lemma calcLoop_append (b : Bool) (l₁ l₂ : List String) :
    ∀ s : PyState,
      calcLoop b s (l₁ ++ l₂) =
        (match calcLoop b s l₁ with
         | .error e => .error e
         | .ok (out, s₁) =>
           match calcLoop b s₁ l₂ with
           | .error e => .error e
           | .ok (out₂, s₂) => .ok (out ++ out₂, s₂)) := by
  induction l₁ with
  | nil =>
    intro s
    cases h : calcLoop b s l₂ with
    | error e => simp [calcLoop, h]
    | ok os =>
      obtain ⟨out, s₂⟩ := os
      simp [calcLoop, h]
  | cons p tl ih =>
    intro s
    cases hn : odbs_odbobject_normalizer s (.path p) with
    | error e => simp [calcLoop, hn]
    | ok hs =>
      obtain ⟨h, s₁⟩ := hs
      cases hc : odbs_get_calc_time s₁ (.odb h) b with
      | error e => simp [calcLoop, hn, hc]
      | ok ds =>
        obtain ⟨d, s₂⟩ := ds
        cases h1 : calcLoop b s₂ tl with
        | error e => simp [calcLoop, hn, hc, ih, h1]
        | ok os =>
          obtain ⟨out, s₃⟩ := os
          cases h2 : calcLoop b s₃ l₂ with
          | error e => simp [calcLoop, hn, hc, ih, h1, h2]
          | ok os₂ =>
            obtain ⟨out₂, s₄⟩ := os₂
            simp [calcLoop, hn, hc, ih, h1, h2]

lemma upgradeLoop_append (host : HostModel) (temp : String)
    (l₁ l₂ : List String) :
    ∀ s : PyState,
      upgradeLoop host temp s (l₁ ++ l₂) =
        (match upgradeLoop host temp s l₁ with
         | .error e => .error e
         | .ok s₁ => upgradeLoop host temp s₁ l₂) := by
  induction l₁ with
  | nil => intro s; rfl
  | cons job tl ih =>
    intro s
    simp only [List.cons_append, upgradeLoop]
    cases h : upgradeOne host temp s job with
    | error e => rfl
    | ok s₃ => exact ih s₃

lemma upgradeOne_ok (host : HostModel) (s : PyState) (job temp : String)
    (d d' : OdbData)
    (hl : lookupS s.fs job = some d) (hu : host.upgrade d = some d')
    (hjt : job ≠ temp) (hoj : old_name_of job ≠ job)
    (hot : old_name_of job ≠ temp) :
    ∃ s₃, upgradeOne host temp s job = .ok s₃ ∧
      lookupS s₃.fs job = some d' ∧
      lookupS s₃.fs (old_name_of job) = some d ∧
      lookupS s₃.fs temp = none ∧
      (∀ r, r ≠ job → r ≠ old_name_of job → r ≠ temp →
        lookupS s₃.fs r = lookupS s.fs r) ∧
      s₃.sessionOdbs = s.sessionOdbs ∧
      s₃.events = s.events ++ stepEvents temp job := by
  have htj : temp ≠ job := fun hh => hjt hh.symm
  have hto : temp ≠ old_name_of job := fun hh => hot hh.symm
  -- step 1: upgrade into the temp file
  have h_up : session_upgradeOdb host s job temp =
      .ok { s with fs := setKey s.fs temp d',
                   events := s.events ++ [Event.upgradeOdb job temp] } := by
    simp [session_upgradeOdb, hl, hu]
  have hl1 : lookupS (setKey s.fs temp d') job = some d := by
    rw [lookupS_setKey_other _ _ _ _ hjt]
    exact hl
  -- step 2: rename the file to its old name
  have h_r1 : os_rename
      { s with fs := setKey s.fs temp d',
               events := s.events ++ [Event.upgradeOdb job temp] }
      job (old_name_of job) =
      .ok { s with
              fs := setKey (delKey (setKey s.fs temp d') job)
                (old_name_of job) d,
              events := s.events ++ [Event.upgradeOdb job temp,
                Event.rename job (old_name_of job)] } := by
    simp [os_rename, hl1]
  have hl2 : lookupS (setKey (delKey (setKey s.fs temp d') job)
      (old_name_of job) d) temp = some d' := by
    rw [lookupS_setKey_other _ _ _ _ hto, lookupS_delKey_other _ _ _ htj,
      lookupS_setKey_self]
  -- step 3: rename the temp file to the file's name
  have h_r2 : os_rename
      { s with
          fs := setKey (delKey (setKey s.fs temp d') job) (old_name_of job) d,
          events := s.events ++ [Event.upgradeOdb job temp,
            Event.rename job (old_name_of job)] }
      temp job =
      .ok { s with
              fs := setKey (delKey (setKey (delKey (setKey s.fs temp d') job)
                  (old_name_of job) d) temp) job d',
              events := s.events ++ [Event.upgradeOdb job temp,
                Event.rename job (old_name_of job),
                Event.rename temp job] } := by
    simp [os_rename, hl2]
  refine ⟨{ s with
      fs := setKey (delKey (setKey (delKey (setKey s.fs temp d') job)
        (old_name_of job) d) temp) job d',
      events := s.events ++ [Event.upgradeOdb job temp,
        Event.rename job (old_name_of job), Event.rename temp job] },
    by simp [upgradeOne, h_up, h_r1, h_r2], ?_, ?_, ?_, ?_, rfl, ?_⟩
  · exact lookupS_setKey_self _ _ _
  · rw [lookupS_setKey_other _ _ _ _ hoj, lookupS_delKey_other _ _ _ hot,
      lookupS_setKey_self]
  · rw [lookupS_setKey_other _ _ _ _ htj, lookupS_delKey_self]
  · intro r hr1 hr2 hr3
    rw [lookupS_setKey_other _ _ _ _ hr1, lookupS_delKey_other _ _ _ hr3,
      lookupS_setKey_other _ _ _ _ hr2, lookupS_delKey_other _ _ _ hr1,
      lookupS_setKey_other _ _ _ _ hr3]
  · simp [stepEvents]

/-- The rename dance is collision free for a list of upgradable files:
distinct paths, none equal to the temp path, old names distinct from the
files, the temp path and each other. -/
def SaneJobs (temp : String) (jobs : List String) : Prop :=
  jobs.Nodup ∧
  (∀ q ∈ jobs, q ≠ temp ∧ old_name_of q ≠ q ∧ old_name_of q ≠ temp ∧
    old_name_of q ∉ jobs) ∧
  (jobs.map old_name_of).Nodup

instance (temp : String) (jobs : List String) : Decidable (SaneJobs temp jobs) := by
  unfold SaneJobs
  exact inferInstance

/-- Every file of the list exists and upgrades successfully. -/
def GoodJobs (host : HostModel) (fs : List (String × OdbData))
    (jobs : List String) : Prop :=
  ∀ q ∈ jobs, ∃ d d', lookupS fs q = some d ∧ host.upgrade d = some d'

lemma sane_sublist {temp : String} {l₁ l₂ : List String}
    (hs : l₁.Sublist l₂) (h : SaneJobs temp l₂) : SaneJobs temp l₁ := by
  obtain ⟨h1, h2, h3⟩ := h
  refine ⟨h1.sublist hs, fun q hq => ?_, h3.sublist (hs.map _)⟩
  obtain ⟨a, b, c, d⟩ := h2 q (hs.subset hq)
  exact ⟨a, b, c, fun hm => d (hs.subset hm)⟩

lemma upgradeLoop_ok_fs (host : HostModel) (temp : String) :
    ∀ (jobs : List String) (s : PyState),
      SaneJobs temp jobs → GoodJobs host s.fs jobs →
      ∃ s', upgradeLoop host temp s jobs = .ok s' ∧
        (∀ q ∈ jobs, ∃ d d', lookupS s.fs q = some d ∧
          host.upgrade d = some d' ∧ lookupS s'.fs q = some d' ∧
          lookupS s'.fs (old_name_of q) = some d) ∧
        (∀ r, r ∉ jobs → r ∉ jobs.map old_name_of → r ≠ temp →
          lookupS s'.fs r = lookupS s.fs r) ∧
        s'.sessionOdbs = s.sessionOdbs ∧
        s'.events = s.events ++ jobs.flatMap (stepEvents temp) := by
  intro jobs
  induction jobs with
  | nil =>
    intro s _ _
    exact ⟨s, rfl, by simp, fun r _ _ _ => rfl, rfl, by simp⟩
  | cons job rest ih =>
    intro s hsane hgood
    obtain ⟨d, d', hl, hu⟩ := hgood job (by simp)
    obtain ⟨hqt, hoq, hot, hom⟩ := hsane.2.1 job (by simp)
    obtain ⟨s₃, hone, hjob, hold, htemp, hother, hsess, hev⟩ :=
      upgradeOne_ok host s job temp d d' hl hu hqt hoq hot
    have hsane' : SaneJobs temp rest :=
      sane_sublist (List.sublist_cons_self _ _) hsane
    have hrestq : ∀ q ∈ rest, q ≠ job ∧ q ≠ old_name_of job ∧ q ≠ temp := by
      intro q hq
      refine ⟨?_, ?_, (hsane.2.1 q (List.mem_cons_of_mem _ hq)).1⟩
      · intro hqj
        subst hqj
        exact (List.nodup_cons.mp hsane.1).1 hq
      · intro hqo
        exact hom (hqo ▸ List.mem_cons_of_mem _ hq)
    have hgood' : GoodJobs host s₃.fs rest := by
      intro q hq
      obtain ⟨dq, dq', hlq, huq⟩ := hgood q (List.mem_cons_of_mem _ hq)
      obtain ⟨h1, h2, h3⟩ := hrestq q hq
      refine ⟨dq, dq', ?_, huq⟩
      rw [hother q h1 h2 h3]
      exact hlq
    obtain ⟨s', hloop, hdone, huntouched, hsess', hev'⟩ := ih s₃ hsane' hgood'
    refine ⟨s', ?_, ?_, ?_, ?_, ?_⟩
    · simp [upgradeLoop, hone, hloop]
    · intro q hq
      rcases List.mem_cons.mp hq with rfl | hq'
      · refine ⟨d, d', hl, hu, ?_, ?_⟩
        · have hjr : q ∉ rest := (List.nodup_cons.mp hsane.1).1
          have hjro : q ∉ rest.map old_name_of := by
            intro hm
            obtain ⟨q', hq', heq⟩ := List.mem_map.mp hm
            exact (hsane.2.1 q' (List.mem_cons_of_mem _ hq')).2.2.2
              (heq ▸ List.mem_cons_self _ _)
          rw [huntouched q hjr hjro hqt]
          exact hjob
        · have h1 : old_name_of q ∉ rest := fun hm =>
            hom (List.mem_cons_of_mem _ hm)
          have h2 : old_name_of q ∉ rest.map old_name_of := by
            have h3 := hsane.2.2
            rw [List.map_cons] at h3
            exact (List.nodup_cons.mp h3).1
          rw [huntouched _ h1 h2 hot]
          exact hold
      · obtain ⟨dq, dq', hlq, huq, hnow, holdnow⟩ := hdone q hq'
        obtain ⟨h1, h2, h3⟩ := hrestq q hq'
        refine ⟨dq, dq', ?_, huq, hnow, holdnow⟩
        rw [← hother q h1 h2 h3]
        exact hlq
    · intro r hr1 hr2 hr3
      have hrj : r ≠ job := fun h => hr1 (h ▸ List.mem_cons_self _ _)
      have hrr : r ∉ rest := fun h => hr1 (List.mem_cons_of_mem _ h)
      have hro : r ≠ old_name_of job := by
        intro h
        apply hr2
        rw [List.map_cons]
        exact h ▸ List.mem_cons_self _ _
      have hrro : r ∉ rest.map old_name_of := by
        intro h
        apply hr2
        rw [List.map_cons]
        exact List.mem_cons_of_mem _ h
      rw [huntouched r hrr hrro hr3, hother r hrj hro hr3]
    · rw [hsess', hsess]
    · rw [hev', hev]
      simp

/-- Claim C7: When a per-file step of batch processing raises, no
handle-closing or recovery step runs.  In `odbs_get_calc_time_folder`, if
the timing record of the file after `pre` in the listing is missing, the
call raises in a state where every handle opened so far — one per file of
`pre` plus one for the failing file — is still open and no close-all
effect was performed.  In `odbs_upgrade_odbs_folder`, if the host upgrade
fails on the file after `pre` among the upgradable files, the call raises
in the state reached after `pre`: those files remain renamed (upgraded
content under their own name, originals under the derived old names), the
remaining files are untouched, and no further effect was performed. -/
theorem batch_error_leaves_state :
    (∀ (fs : List (String × OdbData)) (folder : String)
       (b recursive close_odbs : Bool) (ev : List Event)
       (pre : List String) (p : String) (rest : List String) (d : OdbData),
      (fs.map Prod.fst).Nodup →
      files_with_extension_lister fs folder ".odb" recursive =
        pre ++ p :: rest →
      (∀ q ∈ pre, ∃ dq tq, lookupS fs q = some dq ∧ dq.jobTime = some tq ∧
        ValidJobTime tq) →
      lookupS fs p = some d → d.jobTime = none →
      odbs_get_calc_time_folder ⟨fs, [], ev⟩ folder b recursive close_odbs =
        .error (.odbError,
          { fs := fs,
            sessionOdbs := (pre ++ [p]).map (fun q => (q, handleOf fs q)),
            events := ev ++ (pre ++ [p]).map
              (fun q => Event.openOdb q false) }) ∧
      Event.closeAllOdbs ∉
        ((pre ++ [p]).map (fun q => Event.openOdb q false))) ∧
    (∀ (host : HostModel) (fs : List (String × OdbData)) (ev : List Event)
       (folder : String) (recursive : Bool) (print_every : Nat)
       (pre : List String) (p : String) (rest : List String) (d : OdbData),
      ((files_with_extension_lister fs folder ".odb" recursive).filter
          host.isUpgradeRequired) = pre ++ p :: rest →
      SaneJobs (os_path_join folder "temp_odb_name.odb") (pre ++ p :: rest) →
      GoodJobs host fs pre →
      lookupS fs p = some d → host.upgrade d = none →
      ∃ sErr, odbs_upgrade_odbs_folder host ⟨fs, [], ev⟩ folder recursive
          print_every = .error (.odbError, sErr) ∧
        (∀ q ∈ pre, ∃ dq dq', lookupS fs q = some dq ∧
          host.upgrade dq = some dq' ∧ lookupS sErr.fs q = some dq' ∧
          lookupS sErr.fs (old_name_of q) = some dq) ∧
        (∀ r ∈ rest, lookupS sErr.fs r = lookupS fs r) ∧
        sErr.sessionOdbs = [] ∧
        sErr.events = ev ++ pre.flatMap
          (stepEvents (os_path_join folder "temp_odb_name.odb"))) := by
  constructor
  · intro fs folder b recursive close_odbs ev pre p rest d hnodup hlist hgood
      hfs hjt
    refine ⟨?_, by simp⟩
    have hlnodup : (pre ++ p :: rest).Nodup := by
      rw [← hlist]
      exact List.Nodup.filter _ hnodup
    have hprenodup : pre.Nodup := (List.nodup_append.mp hlnodup).1
    have hdisj := (List.nodup_append.mp hlnodup).2.2
    have hpnp : p ∉ pre := fun hp => hdisj hp (List.mem_cons_self _ _)
    have hloopPre := calcLoop_ok b pre ⟨fs, [], ev⟩ hprenodup
      (fun q _ => rfl) hgood
    have hlk : lookupS
        (([] : List (String × Odb)) ++ pre.map (fun q => (q, handleOf fs q)))
        p = none := by
      rw [List.nil_append]
      exact lookupS_mapKeyed _ pre p hpnp
    have hnorm : odbs_odbobject_normalizer
        { fs := fs,
          sessionOdbs :=
            ([] : List (String × Odb)) ++
              pre.map (fun q => (q, handleOf fs q)),
          events := ev ++ pre.map (fun q => Event.openOdb q false) }
        (.path p) =
        .ok (⟨p, d, false⟩,
          { fs := fs,
            sessionOdbs :=
              (([] : List (String × Odb)) ++
                pre.map (fun q => (q, handleOf fs q))) ++ [(p, ⟨p, d, false⟩)],
            events := (ev ++ pre.map (fun q => Event.openOdb q false)) ++
              [Event.openOdb p false] }) := by
      simp only [odbs_odbobject_normalizer, hlk, PyState.openOdb, hfs]
    have hcalc : odbs_get_calc_time
        { fs := fs,
          sessionOdbs :=
            (([] : List (String × Odb)) ++
              pre.map (fun q => (q, handleOf fs q))) ++ [(p, ⟨p, d, false⟩)],
          events := (ev ++ pre.map (fun q => Event.openOdb q false)) ++
            [Event.openOdb p false] }
        (.odb ⟨p, d, false⟩) b =
        .error (.odbError,
          { fs := fs,
            sessionOdbs :=
              (([] : List (String × Odb)) ++
                pre.map (fun q => (q, handleOf fs q))) ++ [(p, ⟨p, d, false⟩)],
            events := (ev ++ pre.map (fun q => Event.openOdb q false)) ++
              [Event.openOdb p false] }) := by
      simp [odbs_get_calc_time, odbs_odbobject_normalizer, hjt]
    have hcl : calcLoop b (⟨fs, [], ev⟩ : PyState) (pre ++ p :: rest) =
        .error (.odbError,
          { fs := fs,
            sessionOdbs :=
              (([] : List (String × Odb)) ++
                pre.map (fun q => (q, handleOf fs q))) ++ [(p, ⟨p, d, false⟩)],
            events := (ev ++ pre.map (fun q => Event.openOdb q false)) ++
              [Event.openOdb p false] }) := by
      rw [calcLoop_append b pre (p :: rest), hloopPre]
      simp only [calcLoop, hnorm, hcalc]
    have hhp : handleOf fs p = ⟨p, d, false⟩ := by
      simp [handleOf, hfs]
    simp only [odbs_get_calc_time_folder]
    rw [hlist, hcl]
    simp [hhp]
  · intro host fs ev folder recursive print_every pre p rest d hlist hsane
      hgood hfs hu
    have hpresane : SaneJobs (os_path_join folder "temp_odb_name.odb") pre :=
      sane_sublist (List.sublist_append_left _ _) hsane
    obtain ⟨s₁, hloop, hdone, huntouched, hsess, hev⟩ :=
      upgradeLoop_ok_fs host (os_path_join folder "temp_odb_name.odb") pre
        ⟨fs, [], ev⟩ hpresane hgood
    have hdisj := (List.nodup_append.mp hsane.1).2.2
    have hpnp : p ∉ pre := fun hp => hdisj hp (List.mem_cons_self _ _)
    have hpno : p ∉ pre.map old_name_of := by
      intro hm
      obtain ⟨q', hq', heq⟩ := List.mem_map.mp hm
      exact (hsane.2.1 q' (List.mem_append_left _ hq')).2.2.2
        (heq ▸ List.mem_append_right _ (List.mem_cons_self _ _))
    have hpt : p ≠ os_path_join folder "temp_odb_name.odb" :=
      (hsane.2.1 p (List.mem_append_right _ (List.mem_cons_self _ _))).1
    have hlp : lookupS s₁.fs p = some d := by
      rw [huntouched p hpnp hpno hpt]
      exact hfs
    have hfail : upgradeOne host (os_path_join folder "temp_odb_name.odb")
        s₁ p = .error (.odbError, s₁) := by
      simp [upgradeOne, session_upgradeOdb, hlp, hu]
    refine ⟨s₁, ?_, ?_, ?_, hsess, hev⟩
    · simp only [odbs_upgrade_odbs_folder]
      rw [hlist, upgradeLoop_append host _ pre (p :: rest), hloop]
      simp [upgradeLoop, hfail]
    · intro q hq
      exact hdone q hq
    · intro r hr
      have hrp : r ∉ pre := fun h => hdisj h (List.mem_cons_of_mem _ hr)
      have hro : r ∉ pre.map old_name_of := by
        intro hm
        obtain ⟨q', hq', heq⟩ := List.mem_map.mp hm
        exact (hsane.2.1 q' (List.mem_append_left _ hq')).2.2.2
          (heq ▸ List.mem_append_right _ (List.mem_cons_of_mem _ hr))
      have hrt : r ≠ os_path_join folder "temp_odb_name.odb" :=
        (hsane.2.1 r (List.mem_append_right _ (List.mem_cons_of_mem _ hr))).1
      exact huntouched r hrp hro hrt

/-- A result file whose timing record the host cannot provide (and whose
upgrade the host refuses, under `wHostAll`). -/
def sampleDataBad : OdbData := { jobTime := none, nodeSets := [] }

/-- A host model for which every file requires upgrade and the upgrade
succeeds exactly on files with a timing record. -/
def wHostAll : HostModel :=
  { isUpgradeRequired := fun _ => true,
    upgrade := fun d => if d.jobTime.isSome then some d else none }

/-- A good file and a bad file in folder `/f`. -/
def wMixedFs : List (String × OdbData) :=
  [("/f/a.odb", sampleData), ("/f/b.odb", sampleDataBad)]

theorem batch_error_leaves_state_witness :
    (odbs_get_calc_time_folder ⟨wMixedFs, [], []⟩ "/f" true false true =
        .error (.odbError,
          { fs := wMixedFs,
            sessionOdbs := (["/f/a.odb"] ++ ["/f/b.odb"]).map
              (fun q => (q, handleOf wMixedFs q)),
            events := [] ++ (["/f/a.odb"] ++ ["/f/b.odb"]).map
              (fun q => Event.openOdb q false) }) ∧
      Event.closeAllOdbs ∉
        ((["/f/a.odb"] ++ ["/f/b.odb"]).map
          (fun q => Event.openOdb q false))) ∧
    (∃ sErr, odbs_upgrade_odbs_folder wHostAll ⟨wMixedFs, [], []⟩ "/f"
        false 1 = .error (.odbError, sErr) ∧
      (∀ q ∈ ["/f/a.odb"], ∃ dq dq', lookupS wMixedFs q = some dq ∧
        wHostAll.upgrade dq = some dq' ∧ lookupS sErr.fs q = some dq' ∧
        lookupS sErr.fs (old_name_of q) = some dq) ∧
      (∀ r ∈ ([] : List String), lookupS sErr.fs r = lookupS wMixedFs r) ∧
      sErr.sessionOdbs = [] ∧
      sErr.events = [] ++ ["/f/a.odb"].flatMap
        (stepEvents (os_path_join "/f" "temp_odb_name.odb"))) := by
  constructor
  · exact batch_error_leaves_state.1 wMixedFs "/f" true false true []
      ["/f/a.odb"] "/f/b.odb" [] sampleDataBad (by decide) (by decide)
      (by
        intro q hq
        simp at hq
        subst hq
        exact ⟨sampleData, wTime, rfl, rfl, by decide⟩)
      rfl rfl
  · exact batch_error_leaves_state.2 wHostAll wMixedFs [] "/f" false 1
      ["/f/a.odb"] "/f/b.odb" [] sampleDataBad (by decide) (by decide)
      (by
        intro q hq
        simp at hq
        subst hq
        exact ⟨sampleData, sampleData, rfl, rfl⟩)
      rfl rfl

/-! ### The derived old-file name (C10) -/

lemma pyReplaceAux_nil (pat rep : List Char) :
    ∀ fuel, pyReplaceAux pat rep fuel [] = [] := by
  intro fuel
  cases fuel <;> rfl

lemma isPrefixOf_self (l : List Char) : l.isPrefixOf l = true := by
  induction l with
  | nil => rfl
  | cons c cs ih => simp [List.isPrefixOf, ih]

/-- Scanning `t ++ pat` when the pattern occurs nowhere before the final
position replaces exactly the final occurrence. -/
lemma pyReplaceAux_final (pat rep : List Char) (hpat : pat ≠ []) :
    ∀ (t : List Char) (fuel : Nat), (t ++ pat).length ≤ fuel →
      (∀ i, i < t.length → ¬ (pat.isPrefixOf ((t ++ pat).drop i) = true)) →
      pyReplaceAux pat rep fuel (t ++ pat) = t ++ rep := by
  intro t
  induction t with
  | nil =>
    intro fuel hfuel hocc
    obtain ⟨c, pr, rfl⟩ : ∃ c pr, pat = c :: pr := by
      cases pat with
      | nil => exact absurd rfl hpat
      | cons c pr => exact ⟨c, pr, rfl⟩
    obtain ⟨f, rfl⟩ : ∃ f, fuel = f + 1 := by
      cases fuel with
      | zero => simp at hfuel
      | succ f => exact ⟨f, rfl⟩
    have hdrop : List.drop ((c :: pr).length - 1) pr = [] := by
      simp
    simp [pyReplaceAux, isPrefixOf_self, hdrop, pyReplaceAux_nil]
  | cons c t' ih =>
    intro fuel hfuel hocc
    obtain ⟨f, rfl⟩ : ∃ f, fuel = f + 1 := by
      cases fuel with
      | zero =>
        simp at hfuel
      | succ f => exact ⟨f, rfl⟩
    have h0 : ¬ (pat.isPrefixOf (c :: (t' ++ pat)) = true) := by
      have := hocc 0 (by simp)
      simpa using this
    have hocc' : ∀ i, i < t'.length →
        ¬ (pat.isPrefixOf ((t' ++ pat).drop i) = true) := by
      intro i hi
      have := hocc (i + 1) (by simp; omega)
      simpa using this
    have hrec := ih f (by simp at hfuel ⊢; omega) hocc'
    simp only [List.cons_append, pyReplaceAux, List.append_eq]
    rw [if_neg h0, hrec]

/-- Claim C10: `odbs_upgrade_odbs_folder` computes the old-file name by
replacing every occurrence of the substring `.odb` in the full path with
`-old.odb`.  For a path whose only `.odb` occurrence is its final
extension, the old name is the path with that extension replaced by
`-old.odb`; but for a path containing `.odb` in a directory component, the
rename target lies under a different (possibly nonexistent) directory. -/
theorem old_name_replace_spec :
    (∀ t : List Char,
      (∀ i, i < t.length →
        ¬ (".odb".data.isPrefixOf ((t ++ ".odb".data).drop i) = true)) →
      old_name_of ⟨t ++ ".odb".data⟩ = ⟨t ++ "-old.odb".data⟩) ∧
    (old_name_of "/runs.odb/job.odb" = "/runs-old.odb/job-old.odb" ∧
     dirname "/runs.odb/job.odb" = "/runs.odb" ∧
     dirname (old_name_of "/runs.odb/job.odb") = "/runs-old.odb" ∧
     dirname (old_name_of "/runs.odb/job.odb") ≠ dirname "/runs.odb/job.odb") := by
  constructor
  · intro t hocc
    show pyReplaceStr ⟨t ++ ".odb".data⟩ ".odb" "-old.odb" =
      ⟨t ++ "-old.odb".data⟩
    unfold pyReplaceStr pyReplace
    rw [if_neg (by decide)]
    have := pyReplaceAux_final ".odb".data "-old.odb".data (by decide) t
      (t ++ ".odb".data).length (le_refl _) hocc
    show String.mk (pyReplaceAux ".odb".data "-old.odb".data
      (t ++ ".odb".data).length (t ++ ".odb".data)) =
      String.mk (t ++ "-old.odb".data)
    rw [this]
  · exact ⟨by decide, by decide, by decide, by decide⟩

theorem old_name_replace_spec_witness :
    old_name_of ⟨"/f/job".data ++ ".odb".data⟩ =
      ⟨"/f/job".data ++ "-old.odb".data⟩ :=
  old_name_replace_spec.1 "/f/job".data (by decide)

end AbaqusInside
